import Mathlib

/-!
Verification of the ethtxparser block-ingestion pipeline.

The Go sources are shallowly embedded: Go strings used only for identity
(hashes, payloads) become `String`; Go strings that undergo character-level
processing (addresses) become `List Char`; Go `int64` becomes `Int`; Go
slices become `List`; nilable pointers and zero values become `Option`.
Stateful loops become folds / structural recursion.
-/

set_option linter.unusedVariables false

namespace ringbuffer

/-- Go: `type RingBuffer[T any] struct { buf []T; head int; tail int; size int }`.
`buf` is a fixed-length slice; a slot that holds `T`'s zero value (never yet
written, or cleared by `Pop`/`DropBack`) is modelled as `none`. -/
structure RingBuffer (T : Type) where
  buf : List (Option T)
  head : Nat
  tail : Nat
  size : Nat
deriving Repr, DecidableEq

/-- Go `New`: `&RingBuffer[T]{buf: make([]T, max(1, capacity))}` — a capacity
below 1 is clamped to 1. -/
def New (T : Type) (capacity : Nat) : RingBuffer T :=
  { buf := List.replicate (max 1 capacity) none, head := 0, tail := 0, size := 0 }

namespace RingBuffer

variable {T : Type}

/-- Go `cap(r.buf)` (equal to `len(r.buf)` for a slice made with `make([]T, n)`). -/
def capacity (r : RingBuffer T) : Nat := r.buf.length

/-- Go `Size`. -/
def Size (r : RingBuffer T) : Nat := r.size

/-- Go `IsFull`: `r.size == cap(r.buf)`. -/
def IsFull (r : RingBuffer T) : Bool := r.size == r.capacity

/-- Go `Push`: fails iff already at capacity, otherwise writes at `tail`. -/
def Push (r : RingBuffer T) (item : T) : RingBuffer T × Bool :=
  if r.size = r.capacity then (r, false)
  else ({ buf := r.buf.set r.tail (some item),
          head := r.head,
          tail := (r.tail + 1) % r.capacity,
          size := r.size + 1 }, true)

/-- Go `Pop`: removes and returns the oldest item (zeroing its slot);
`(nil, false)` when empty. The Go receiver is mutated in place; here the
updated buffer is returned as the third component. -/
def Pop (r : RingBuffer T) : Option T × Bool × RingBuffer T :=
  if r.size = 0 then (none, false, r)
  else (r.buf.getD r.head none, true,
        { buf := r.buf.set r.head none,
          head := (r.head + 1) % r.capacity,
          tail := r.tail,
          size := r.size - 1 })

/-- Index of the newest element. Go computes `(r.tail - 1 + cap) % cap` with
signed `int` arithmetic; since `0 ≤ tail` and `1 ≤ cap`, that equals
`(tail + cap - 1) % cap`, which avoids truncated `Nat` subtraction. -/
def backIdx (r : RingBuffer T) : Nat := (r.tail + r.capacity - 1) % r.capacity

/-- Go `Back`: peek the newest item without removing it. -/
def Back (r : RingBuffer T) : Option T × Bool :=
  if r.size = 0 then (none, false)
  else (r.buf.getD r.backIdx none, true)

/-- Go `DropBack`: discard the newest item (zeroing its slot); no-op if empty. -/
def DropBack (r : RingBuffer T) : RingBuffer T :=
  if r.size = 0 then r
  else { buf := r.buf.set r.backIdx none,
         head := r.head,
         tail := r.backIdx,
         size := r.size - 1 }

/-- The slot holding the `i`-th oldest element. -/
def slot (r : RingBuffer T) (i : Nat) : Option T := r.buf.getD ((r.head + i) % r.capacity) none

/-- Abstraction: the queue contents from oldest (front) to newest (back). -/
def contents (r : RingBuffer T) : List T :=
  (List.range r.size).filterMap r.slot

/-- Structural invariant: established by `New` and preserved by every operation. -/
structure Wf (r : RingBuffer T) : Prop where
  cap_pos : 0 < r.capacity
  head_lt : r.head < r.capacity
  size_le : r.size ≤ r.capacity
  tail_eq : r.tail = (r.head + r.size) % r.capacity
  filled : ∀ i, i < r.size → (r.slot i).isSome

end RingBuffer

/-- An operation on the ring buffer, for exercising arbitrary call sequences. -/
inductive QOp (T : Type) where
  | push (x : T)
  | pop
  | dropBack
deriving Repr, DecidableEq

/-- Run a sequence of operations, discarding results (as a caller ignoring the
returned values would). -/
def runOps {T : Type} (r : RingBuffer T) : List (QOp T) → RingBuffer T
  | [] => r
  | QOp.push x :: rest => runOps (r.Push x).1 rest
  | QOp.pop :: rest => runOps (r.Pop).2.2 rest
  | QOp.dropBack :: rest => runOps r.DropBack rest

/-- The abstract bounded FIFO queue the ring buffer implements: a list holding
the elements oldest first; `push` appends at the back unless at capacity,
`pop` removes the front, `dropBack` removes the back. -/
def modelStep {T : Type} (c : Nat) (l : List T) : QOp T → List T
  | QOp.push x => if l.length = c then l else l ++ [x]
  | QOp.pop => l.tail
  | QOp.dropBack => l.dropLast

def runModel {T : Type} (c : Nat) : List T → List (QOp T) → List T
  | l, [] => l
  | l, op :: rest => runModel c (modelStep c l op) rest

end ringbuffer

namespace eth

open ringbuffer ringbuffer.RingBuffer

/-- Go `eth.Tx` (src/internal/eth/types.go): `{Hash, From, To string; Raw []byte}`.
Addresses are kept as received from the node; `Raw` is the opaque original
payload. -/
structure Tx where
  Hash : String
  From : List Char
  To : List Char
  Raw : String
deriving Repr, DecidableEq

/-- Go `eth.Block` (src/internal/eth/types.go):
`{Hash string; Number int64; ParentHash string; Txs []*Tx}`. -/
structure Block where
  Hash : String
  Number : Int
  ParentHash : String
  Txs : List Tx
deriving Repr, DecidableEq

instance : Inhabited Block := ⟨⟨"", 0, "", []⟩⟩

/-- The reconciliation loop of Go `ReorgFilter` (src/internal/eth/reorg_filter.go):
`for rb.Size() > 0 { tail, _ := rb.Back(); if block.ParentHash == tail.Hash { break };
rb.DropBack() }`. `fuel` bounds the iteration count; each iteration removes one
element, so `rb.Size()` iterations always suffice, and structural recursion on
`fuel` keeps the definition executable. Returns the reconciled buffer together
with the dropped (orphaned) blocks in drop order, newest first. Under `Wf`,
`Back` never yields an empty slot, so the `getD default` fallback is inert. -/
def reconcileAux : Nat → RingBuffer Block → Block → RingBuffer Block × List Block
  | 0, rb, _ => (rb, [])
  | fuel + 1, rb, b =>
    if rb.Size > 0 then
      let t := ((rb.Back).1).getD default
      if b.ParentHash = t.Hash then (rb, [])
      else
        let rc := reconcileAux fuel rb.DropBack b
        (rc.1, t :: rc.2)
    else (rb, [])

/-- Result of processing one incoming block inside the `ReorgFilter` loop. -/
structure StepResult where
  rb : RingBuffer Block
  emitted : Option Block
  pushedOk : Bool
  dropped : List Block
deriving Repr, DecidableEq

/-- The body of Go `ReorgFilter`'s per-block loop: reconcile, then if the
window is full pop the oldest block and emit it downstream, then push the
incoming block (`_ = rb.Push(block)`; `pushedOk` records its ignored result). -/
def reorgStep (rb : RingBuffer Block) (b : Block) : StepResult :=
  let rc := reconcileAux rb.Size rb b
  if rc.1.IsFull then
    let popped := rc.1.Pop
    let push := popped.2.2.Push b
    ⟨push.1, popped.1, push.2, rc.2⟩
  else
    let push := rc.1.Push b
    ⟨push.1, none, push.2, rc.2⟩

/-- Go `ReorgFilter`'s goroutine over a finite prefix of the input channel:
returns the final buffer, the emitted (confirmed) blocks in emission order,
and all dropped (orphaned) blocks. -/
def reorgRun (rb : RingBuffer Block) : List Block → RingBuffer Block × List Block × List Block
  | [] => (rb, [], [])
  | b :: rest =>
    let s := reorgStep rb b
    let r := reorgRun s.rb rest
    (r.1, s.emitted.toList ++ r.2.1, s.dropped ++ r.2.2)

/-- Go `ReorgFilter(ctx, logger, in, confirmationDepth)`: the stream of blocks
sent on the output channel when the input channel carries `blocks`. -/
def ReorgFilter (confirmationDepth : Nat) (blocks : List Block) : List Block :=
  (reorgRun (ringbuffer.New Block confirmationDepth) blocks).2.1

/-- List-level model of the reconciliation loop: drop from the back while the
back's hash does not match the incoming block's parent hash. -/
def winReconcile (w : List Block) (b : Block) : List Block :=
  (w.reverse.dropWhile (fun t => !(b.ParentHash == t.Hash))).reverse

/-- List-level model of the blocks dropped by reconciliation (newest first). -/
def winDropped (w : List Block) (b : Block) : List Block :=
  w.reverse.takeWhile (fun t => !(b.ParentHash == t.Hash))

/-- List-level model of one `ReorgFilter` step on the window contents. -/
def winStep (D : Nat) (w : List Block) (b : Block) : List Block × Option Block × List Block :=
  let w1 := winReconcile w b
  if w1.length = D then (w1.tail ++ [b], w1.head?, winDropped w b)
  else (w1 ++ [b], none, winDropped w b)

/-- List-level model of the `ReorgFilter` loop: final window, emissions, drops. -/
def winRun (D : Nat) (w : List Block) : List Block → List Block × List Block × List Block
  | [] => (w, [], [])
  | b :: rest =>
    let s := winStep D w b
    let r := winRun D s.1 rest
    (r.1, s.2.1.toList ++ r.2.1, s.2.2 ++ r.2.2)

/-- Parent linkage along a list of blocks: each block's `ParentHash` is the
previous block's `Hash`. -/
def Linked (l : List Block) : Prop :=
  List.Chain' (fun a b => b.ParentHash = a.Hash) l

/-- Go `Client.Stream`'s polling loop (src/unnamed/part_001). `responses`
lists, tick by tick, the outcome that `getFullBlock(ctx, currentBlockNumber+1)`
produces: `none` for any error (not-yet-minted and failures are both a
`continue`), `some b` for a decoded block. `cur` is `currentBlockNumber`,
starting at `-2` so that the first request maps to the `latest` sentinel `-1`.
Returns the blocks sent on the output channel, in order. -/
def streamRun (cur : Int) : List (Option Block) → List Block
  | [] => []
  | none :: rest => streamRun cur rest
  | some b :: rest =>
    if b.Number = cur then streamRun cur rest
    else b :: streamRun b.Number rest

/-- The height requested at a tick is `cur + 1` (`-1` encodes the `latest`
sentinel). `honestResponses cur rs` states that every successful response
carries the block of the requested height; a `latest` request may resolve to
any height `≥ 0`. The state update mirrors `streamRun`. -/
def honestResponses : Int → List (Option Block) → Bool
  | _, [] => true
  | cur, none :: rest => honestResponses cur rest
  | cur, some b :: rest =>
    (if cur + 1 = -1 then decide (0 ≤ b.Number) else b.Number == cur + 1)
      && honestResponses (if b.Number = cur then cur else b.Number) rest

inductive RespBody
  | malformed
  | nullResult
  | blockResult (b : Block)
deriving Repr, DecidableEq

/-- An HTTP response as `getFullBlock` observes it: status code plus what
decoding `{"result": ...}` from the body would yield (`malformed` when the
JSON decoder errors, `nullResult` when `result` is `null`). -/
structure HttpResp where
  status : Nat
  body : RespBody
deriving Repr, DecidableEq

/-- Outcome of one `httpClient.Do` attempt: a transport error — `cancelled`
marks `errors.Is(err, context.DeadlineExceeded) || errors.Is(err,
context.Canceled)` — or a response. -/
inductive AttemptOutcome
  | transport (cancelled : Bool)
  | response (r : HttpResp)
deriving Repr, DecidableEq

inductive FetchError
  | retriesExhausted
  | cancelledPermanent
  | badStatus (status : Nat)
  | decodeFailure
  | notMinted
deriving Repr, DecidableEq

/-- Go `Client.doRequestWithRetry` (src/unnamed/part_001). The external
`backoff.RetryWithData` loop retries the operation while it returns a
non-permanent error and the elapsed-time budget allows another attempt; an
error wrapped in `backoff.Permanent` — produced by the code exactly for
cancellation/deadline transport errors — stops the loop at once. `attempts`
lists the outcome each permitted attempt would observe; its length plays the
role of the remaining time budget. Returns the result and the number of
attempts consumed. -/
def doRequestWithRetry : List AttemptOutcome → Except FetchError HttpResp × Nat
  | [] => (.error .retriesExhausted, 0)
  | .response r :: _ => (.ok r, 1)
  | .transport c :: rest =>
    if c then (.error .cancelledPermanent, 1)
    else
      let res := doRequestWithRetry rest
      (res.1, res.2 + 1)

/-- Go `Client.getFullBlock` after the request is built: the retried call,
then the status check (`resp.StatusCode != http.StatusOK` fails), then body
decoding (a decode error fails; a `null` result is `ErrNotFound`). None of
these post-call failures re-enters the retry loop. -/
def getFullBlock (attempts : List AttemptOutcome) : Except FetchError Block × Nat :=
  let res := doRequestWithRetry attempts
  match res.1 with
  | .error e => (.error e, res.2)
  | .ok r =>
    if r.status ≠ 200 then (.error (.badStatus r.status), res.2)
    else
      match r.body with
      | .malformed => (.error .decodeFailure, res.2)
      | .nullResult => (.error .notMinted, res.2)
      | .blockResult b => (.ok b, res.2)

/-- The spec's reorg-absorption example, block A: height 1. -/
def blkA : Block := { Hash := "a1", Number := 1, ParentHash := "g0", Txs := [] }

/-- The spec's example, block B: height 2, parent A — the fork tip later
replaced by C. -/
def blkB : Block := { Hash := "b2", Number := 2, ParentHash := "a1", Txs := [] }

/-- The spec's example, block C: height 2, parent A — replaces B. -/
def blkC : Block := { Hash := "c2", Number := 2, ParentHash := "a1", Txs := [] }

/-- The spec's example, block D: height 3, parent C. -/
def blkD : Block := { Hash := "d3", Number := 3, ParentHash := "c2", Txs := [] }

/-- The spec's example, block E: height 4, parent D. -/
def blkE : Block := { Hash := "e4", Number := 4, ParentHash := "d3", Txs := [] }

end eth

namespace store

/-- Go `store.TxRecord` (src/internal/store/types.go). -/
structure TxRecord where
  Hash : String
  From : List Char
  To : List Char
  BlockNumber : Int
  BlockHash : String
  Raw : String
deriving Repr, DecidableEq

/-- Go `store.Block` (src/internal/store/types.go); the Go
`map[string][]*TxRecord` is modelled as an association list — a Go map has no
duplicate keys, and each key updates only its own bucket, so the iteration
order is immaterial. -/
structure Block where
  Number : Int
  Hash : String
  ParentHash : String
  AddrToTxs : List (List Char × List TxRecord)
deriving Repr, DecidableEq

end store

namespace gostrings

/-- Go `strings.ToLower` restricted to the ASCII case mapping (`Char.toLower`);
the addresses this program lowercases are ASCII hex strings. -/
def goToLower (s : List Char) : List Char := s.map Char.toLower

/-- Go `unicode.IsSpace` restricted to ASCII whitespace, which is all that the
trimmed address strings can contain. -/
def isSpaceGo (c : Char) : Bool :=
  (c == ' ') || (c == '\t') || (c == '\n') || (c == '\x0b') || (c == '\x0c') || (c == '\r')

/-- Go `strings.TrimSpace`: drop leading and trailing whitespace. -/
def goTrimSpace (s : List Char) : List Char :=
  ((s.dropWhile isSpaceGo).reverse.dropWhile isSpaceGo).reverse

/-- Go `encoding/hex`'s accepted digit set (`fromHexChar`). -/
def isHexCharGo (c : Char) : Bool :=
  ('0' ≤ c && c ≤ '9') || ('a' ≤ c && c ≤ 'f') || ('A' ≤ c && c ≤ 'F')

/-- Go `hex.DecodeString(s)` succeeds iff `s` has even length and every
character is a hex digit. -/
def hexDecodeOk (s : List Char) : Bool := (s.length % 2 == 0) && s.all isHexCharGo

end gostrings

namespace memdb

open gostrings

/-- Go `memdb.BlockNone` (src/unnamed/part_004): sentinel for "no blocks yet". -/
def BlockNone : Int := -1

/-- Go `memdb.TxStore`: the address-to-records map as a total function (absent
keys are the empty bucket, as for a Go map), plus the current block number. -/
structure TxStore where
  addrToTransactions : List Char → List store.TxRecord
  currentBlockNum : Int

/-- Go `memdb.NewTxStore`: empty map, `currentBlockNum = BlockNone`. -/
def NewTxStore : TxStore :=
  { addrToTransactions := fun _ => [], currentBlockNum := BlockNone }

/-- Go `TxStore.InsertBlock`: store the block number, then append each
address's records to its bucket. -/
def InsertBlock (s : TxStore) (block : store.Block) : TxStore :=
  { currentBlockNum := block.Number,
    addrToTransactions :=
      block.AddrToTxs.foldl
        (fun m e => fun a => if a = e.1 then m a ++ e.2 else m a)
        s.addrToTransactions }

/-- Go `TxStore.GetTransactions`. -/
def GetTransactions (s : TxStore) (addr : List Char) : List store.TxRecord :=
  s.addrToTransactions addr

/-- Go `TxStore.GetCurrentBlockNumber`; `none` models `store.ErrNotFound`. -/
def GetCurrentBlockNumber (s : TxStore) : Option Int :=
  if s.currentBlockNum = BlockNone then none else some s.currentBlockNum

/-- A sequence of completed `InsertBlock` calls starting from `NewTxStore`. -/
def runInserts (blocks : List store.Block) : TxStore :=
  blocks.foldl InsertBlock NewTxStore

/-- Go `memdb.SubscriptionStore.AddSubscription` over the subscription set
modelled as a duplicate-free list (`map[string]struct{}`): adding an existing
address changes nothing. -/
def AddSubscription (subs : List (List Char)) (addr : List Char) : List (List Char) :=
  if subs.contains addr then subs else subs ++ [addr]

/-- Go `memdb.SubscriptionStore.IsSubscribed`: exact string membership. -/
def IsSubscribed (subs : List (List Char)) (addr : List Char) : Bool :=
  subs.contains addr

end memdb

namespace index

open gostrings

/-- Go `Index.subscribedAddresses` (src/unnamed/part_003) with the
memdb-backed store, whose `IsSubscribed` never errors: check `tx.To` and
`tx.From` independently, each by exact lookup of the spelling as received, and
lowercase each matched side. -/
def subscribedAddresses (isSub : List Char → Bool) (tx : eth.Tx) : List (List Char) :=
  (([tx.To, tx.From]).filter (fun addr => isSub addr)).map goToLower

/-- The `store.TxRecord` literal built inside Go `Index.index` for one match. -/
def recordTx (block : eth.Block) (tx : eth.Tx) : store.TxRecord :=
  { Hash := tx.Hash, From := tx.From, To := tx.To,
    BlockNumber := block.Number, BlockHash := block.Hash, Raw := tx.Raw }

/-- The per-transaction loop body of Go `Index.index`: for every address in
`subscribedAddresses`, `addrToTxs[addr] = append(addrToTxs[addr], record)`. -/
def indexTx (isSub : List Char → Bool) (block : eth.Block)
    (m : List Char → List store.TxRecord) (tx : eth.Tx) : List Char → List store.TxRecord :=
  (subscribedAddresses isSub tx).foldl
    (fun m addr => fun a => if a = addr then m a ++ [recordTx block tx] else m a) m

/-- Go `Index.index`'s construction of the per-block `addrToTxs` map. -/
def indexBlock (isSub : List Char → Bool) (block : eth.Block) :
    List Char → List store.TxRecord :=
  block.Txs.foldl (indexTx isSub block) (fun _ => [])

end index

namespace restapi

open gostrings

/-- Go `validateAndNormalizeAddress` (src/unnamed/part_000): trim and
lowercase, strip one `0x` prefix if present, require 40 hex-decodable
characters, and return the `0x`-prefixed canonical form. -/
def validateAndNormalizeAddress (addr : List Char) : List Char × Bool :=
  let a1 := goToLower (goTrimSpace addr)
  let a2 := if a1.take 2 = ['0', 'x'] then a1.drop 2 else a1
  if a2.length ≠ 40 then ([], false)
  else if ¬ hexDecodeOk a2 = true then ([], false)
  else ('0' :: 'x' :: a2, true)

/-- Go `Server.Subscribe` (data path, with the memdb subscription store):
trim, reject empty, validate/normalize, then `AddSubscription` with the
normalized address. `none` models the error responses. -/
def Subscribe (subs : List (List Char)) (reqAddress : List Char) :
    Option (List (List Char)) :=
  let addr := goTrimSpace reqAddress
  if addr.isEmpty then none
  else
    let v := validateAndNormalizeAddress addr
    if v.2 then some (memdb.AddSubscription subs v.1) else none

/-- Go `Server.ListTransactions` (data path): trim, reject empty,
validate/normalize, check `IsSubscribed` with the normalized address, then
fetch `GetTransactions(ctx, req.Address)` — the store lookup uses the request
field as given, not the normalized address. `none` models the error
responses. -/
def ListTransactions (subs : List (List Char))
    (getTxs : List Char → List store.TxRecord) (reqAddress : List Char) :
    Option (List store.TxRecord) :=
  let addr := goTrimSpace reqAddress
  if addr.isEmpty then none
  else
    let v := validateAndNormalizeAddress addr
    if v.2 then
      if memdb.IsSubscribed subs v.1 then some (getTxs reqAddress) else none
    else none

/-- The claim's characterization of the validator, stated from its words: after
trimming surrounding whitespace and lowercasing, the input must consist of an
optional `0x` prefix followed by exactly 40 hexadecimal digits; acceptance
returns `0x` followed by those digits, rejection returns `("", false)`.
Defined only for the refinement comparison with
`validateAndNormalizeAddress`. -/
def specValidateAddress (s : List Char) : List Char × Bool :=
  let t := goToLower (goTrimSpace s)
  if t.length = 42 ∧ t.take 2 = ['0', 'x'] ∧ (t.drop 2).all isHexCharGo then
    ('0' :: 'x' :: t.drop 2, true)
  else if t.length = 40 ∧ t.all isHexCharGo then ('0' :: 'x' :: t, true)
  else ([], false)

end restapi

namespace fixtures

/-- A subscribed address in canonical (lowercase, `0x`-prefixed) spelling. -/
def addrLower : List Char := "0xaaaaaaaaaaaaaaaaaaaaaaaaaaaaaaaaaaaaaaaa".toList

/-- The same address spelled in uppercase hex digits. -/
def addrUpper : List Char := "0xAAAAAAAAAAAAAAAAAAAAAAAAAAAAAAAAAAAAAAAA".toList

/-- A transaction whose `from` and `to` are the same (canonically spelled)
address. -/
def txSelf : eth.Tx := { Hash := "t0", From := addrLower, To := addrLower, Raw := "raw0" }

/-- A block containing only `txSelf`. -/
def blockSelf : eth.Block :=
  { Hash := "bh0", Number := 7, ParentHash := "ph0", Txs := [txSelf] }

/-- The record `Index.index` builds for `txSelf` inside `blockSelf`. -/
def recSelf : store.TxRecord := index.recordTx blockSelf txSelf

/-- A transaction whose both sides carry the uppercase spelling of the
subscribed address. -/
def txUpper : eth.Tx := { Hash := "t1", From := addrUpper, To := addrUpper, Raw := "raw1" }

/-- A store block whose `Number` collides with the `BlockNone` sentinel. -/
def blkNegStore : store.Block :=
  { Number := -1, Hash := "hn", ParentHash := "pn", AddrToTxs := [] }

/-- An ordinary store block carrying one bucket under `addrUpper`. -/
def blkSevenStore : store.Block :=
  { Number := 7, Hash := "h7", ParentHash := "p7", AddrToTxs := [(addrUpper, [recSelf])] }

/-- Stream blocks for the BlockSource claims. -/
def bl5 : eth.Block := { Hash := "h5", Number := 5, ParentHash := "p5", Txs := [] }

def bl3 : eth.Block := { Hash := "h3", Number := 3, ParentHash := "p3", Txs := [] }

def bl6 : eth.Block := { Hash := "h6", Number := 6, ParentHash := "h5", Txs := [] }

end fixtures

namespace ringbuffer

namespace RingBuffer

variable {T : Type}

theorem capacity_new (c : Nat) : (New T c).capacity = max 1 c := by
  simp [New, capacity]

theorem wf_new (c : Nat) : Wf (New T c) := by
  refine ⟨?_, ?_, ?_, ?_, ?_⟩
  · simp [New, capacity]
  · simp [New, capacity]
  · simp [New, capacity]
  · simp [New, capacity]
  · intro i hi; simp [New] at hi

theorem contents_new (c : Nat) : contents (New T c) = [] := by
  simp [contents, New]

theorem size_new (c : Nat) : (New T c).size = 0 := rfl

theorem filterMap_length_of_isSome {α β : Type _} (f : α → Option β) :
    ∀ l : List α, (∀ a ∈ l, (f a).isSome) → (l.filterMap f).length = l.length := by
  intro l
  induction l with
  | nil => intro _; rfl
  | cons a l ih =>
    intro h
    have ha := h a (List.mem_cons_self a l)
    obtain ⟨b, hb⟩ := Option.isSome_iff_exists.mp ha
    simp only [List.filterMap_cons, hb, List.length_cons]
    rw [ih fun x hx => h x (List.mem_cons_of_mem a hx)]

theorem getD_set_ne {α : Type _} (l : List α) (j k : Nat) (v d : α) (h : j ≠ k) :
    (l.set j v).getD k d = l.getD k d := by
  by_cases hk : k < l.length
  · rw [List.getD_eq_getElem _ _ (by simpa using hk), List.getD_eq_getElem _ _ hk]
    exact List.getElem_set_ne h (by simpa using hk)
  · rw [List.getD_eq_default _ _ (by simpa using Nat.le_of_not_lt hk),
      List.getD_eq_default _ _ (Nat.le_of_not_lt hk)]

theorem getD_set_self {α : Type _} (l : List α) (j : Nat) (v d : α) (h : j < l.length) :
    (l.set j v).getD j d = v := by
  rw [List.getD_eq_getElem _ _ (by simpa using h)]
  simp [List.getElem_set]

theorem mod_add_inj {L h i j : Nat} (hi : i < L) (hj : j < L)
    (e : (h + i) % L = (h + j) % L) : i = j := by
  have hm : Nat.ModEq L i j := Nat.ModEq.add_left_cancel' h e
  have hmm : i % L = j % L := hm
  rwa [Nat.mod_eq_of_lt hi, Nat.mod_eq_of_lt hj] at hmm

theorem contents_length {r : RingBuffer T} (wf : Wf r) : (contents r).length = r.size := by
  unfold contents
  rw [filterMap_length_of_isSome _ _ fun i hi => wf.filled i (List.mem_range.mp hi)]
  exact List.length_range r.size

theorem isFull_iff {r : RingBuffer T} : r.IsFull = true ↔ r.size = r.capacity := by
  simp [IsFull]

theorem push_of_full {r : RingBuffer T} (x : T) (h : r.size = r.capacity) :
    r.Push x = (r, false) := by
  simp [Push, h]

theorem pop_of_empty {r : RingBuffer T} (h : r.size = 0) : r.Pop = (none, false, r) := by
  simp [Pop, h]

theorem dropBack_of_empty {r : RingBuffer T} (h : r.size = 0) : r.DropBack = r := by
  simp [DropBack, h]

theorem push_spec {r : RingBuffer T} (x : T) (wf : Wf r) (h : r.size < r.capacity) :
    (r.Push x).2 = true ∧ Wf (r.Push x).1 ∧ contents (r.Push x).1 = contents r ++ [x] ∧
      (r.Push x).1.capacity = r.capacity ∧ (r.Push x).1.size = r.size + 1 := by
  have hL : 0 < r.capacity := wf.cap_pos
  have hne : ¬ r.size = r.capacity := Nat.ne_of_lt h
  have htail : r.tail = (r.head + r.size) % r.capacity := wf.tail_eq
  have htlt : r.tail < r.buf.length := by
    show r.tail < r.capacity
    rw [htail]; exact Nat.mod_lt _ hL
  have hP : r.Push x
      = ({ buf := r.buf.set r.tail (some x), head := r.head,
           tail := (r.tail + 1) % r.capacity, size := r.size + 1 }, true) := by
    unfold Push; rw [if_neg hne]
  have hcap : (r.Push x).1.capacity = r.capacity := by
    rw [hP]
    show (r.buf.set r.tail (some x)).length = r.capacity
    rw [List.length_set]; rfl
  have hslot : ∀ i, i < r.size → (r.Push x).1.slot i = r.slot i := by
    intro i hi
    have hidx : r.tail ≠ (r.head + i) % r.capacity := by
      rw [htail]
      intro e
      exact absurd (mod_add_inj h (Nat.lt_of_lt_of_le hi wf.size_le) e)
        (Nat.ne_of_gt hi)
    rw [hP]
    show (r.buf.set r.tail (some x)).getD
        ((r.head + i) % (r.buf.set r.tail (some x)).length) none = r.slot i
    rw [List.length_set]
    show (r.buf.set r.tail (some x)).getD ((r.head + i) % r.capacity) none = r.slot i
    unfold slot
    exact getD_set_ne _ _ _ _ _ hidx
  have hslot_top : (r.Push x).1.slot r.size = some x := by
    rw [hP]
    show (r.buf.set r.tail (some x)).getD
        ((r.head + r.size) % (r.buf.set r.tail (some x)).length) none = some x
    rw [List.length_set]
    show (r.buf.set r.tail (some x)).getD ((r.head + r.size) % r.capacity) none = some x
    rw [← htail]
    exact getD_set_self _ _ _ _ htlt
  refine ⟨by rw [hP], ?_, ?_, hcap, by rw [hP]⟩
  · refine ⟨?_, ?_, ?_, ?_, ?_⟩
    · rw [hP]
      show 0 < (r.buf.set r.tail (some x)).length
      rw [List.length_set]; exact hL
    · rw [hP]
      show r.head < (r.buf.set r.tail (some x)).length
      rw [List.length_set]; exact wf.head_lt
    · rw [hP]
      show r.size + 1 ≤ (r.buf.set r.tail (some x)).length
      rw [List.length_set]; exact h
    · rw [hP]
      show (r.tail + 1) % r.capacity
          = (r.head + (r.size + 1)) % (r.buf.set r.tail (some x)).length
      rw [List.length_set]
      show (r.tail + 1) % r.capacity = (r.head + (r.size + 1)) % r.capacity
      rw [htail, Nat.mod_add_mod, Nat.add_assoc]
    · intro i hi
      have hi' : i < r.size + 1 := by rw [hP] at hi; exact hi
      rcases Nat.lt_succ_iff_lt_or_eq.mp hi' with hlt | heq
      · rw [hslot i hlt]; exact wf.filled i hlt
      · rw [heq, hslot_top]; rfl
  · have hsz : (r.Push x).1.size = r.size + 1 := by rw [hP]
    show (List.range (r.Push x).1.size).filterMap (r.Push x).1.slot = contents r ++ [x]
    rw [hsz, List.range_succ, List.filterMap_append]
    congr 1
    · show (List.range r.size).filterMap (r.Push x).1.slot = contents r
      rw [List.filterMap_congr fun i hi => hslot i (List.mem_range.mp hi)]
      rfl
    · simp [hslot_top]

theorem pop_spec {r : RingBuffer T} (wf : Wf r) (h : 0 < r.size) :
    (r.Pop).1 = (contents r).head? ∧ (r.Pop).2.1 = true ∧ Wf (r.Pop).2.2 ∧
      contents (r.Pop).2.2 = (contents r).tail ∧
      (r.Pop).2.2.capacity = r.capacity ∧ (r.Pop).2.2.size = r.size - 1 := by
  have hL : 0 < r.capacity := wf.cap_pos
  have hne : ¬ r.size = 0 := Nat.pos_iff_ne_zero.mp h
  have hhead : (r.head + 0) % r.capacity = r.head := by
    rw [Nat.add_zero, Nat.mod_eq_of_lt wf.head_lt]
  have hP : r.Pop
      = (r.buf.getD r.head none, true,
         { buf := r.buf.set r.head none, head := (r.head + 1) % r.capacity,
           tail := r.tail, size := r.size - 1 }) := by
    unfold Pop; rw [if_neg hne]
  have hcap : (r.Pop).2.2.capacity = r.capacity := by
    rw [hP]
    show (r.buf.set r.head none).length = r.capacity
    rw [List.length_set]; rfl
  have hfront : r.buf.getD r.head none = r.slot 0 := by
    unfold slot; rw [hhead]
  have hslot : ∀ i, i < r.size - 1 → (r.Pop).2.2.slot i = r.slot (i + 1) := by
    intro i hi
    have hidx : ((r.head + 1) % r.capacity + i) % r.capacity
        = (r.head + (i + 1)) % r.capacity := by
      rw [Nat.mod_add_mod, Nat.add_assoc, Nat.add_comm 1 i]
    have hne2 : r.head ≠ (r.head + (i + 1)) % r.capacity := by
      intro e
      have e' : (r.head + 0) % r.capacity = (r.head + (i + 1)) % r.capacity := by
        rw [hhead]; exact e
      have h0 : (0 : Nat) = i + 1 :=
        mod_add_inj hL (Nat.lt_of_lt_of_le (by omega) wf.size_le) e'
      omega
    rw [hP]
    show (r.buf.set r.head none).getD
        (((r.head + 1) % r.capacity + i) % (r.buf.set r.head none).length) none
        = r.slot (i + 1)
    rw [List.length_set]
    show (r.buf.set r.head none).getD
        (((r.head + 1) % r.capacity + i) % r.capacity) none = r.slot (i + 1)
    rw [hidx]
    unfold slot
    exact getD_set_ne _ _ _ _ _ hne2
  obtain ⟨a, ha⟩ := Option.isSome_iff_exists.mp (wf.filled 0 h)
  obtain ⟨k, hk⟩ : ∃ k, r.size = k + 1 := ⟨r.size - 1, by omega⟩
  have hk' : r.size - 1 = k := by omega
  have hcontents : contents r
      = a :: (List.range k).filterMap (fun i => r.slot (i + 1)) := by
    show (List.range r.size).filterMap r.slot = _
    rw [hk, List.range_succ_eq_map, List.filterMap_cons, ha, List.filterMap_map]
    rfl
  refine ⟨?_, by rw [hP], ?_, ?_, hcap, by rw [hP]⟩
  · rw [hP, hcontents]
    show r.buf.getD r.head none = some a
    rw [hfront, ha]
  · refine ⟨?_, ?_, ?_, ?_, ?_⟩
    · rw [hP]
      show 0 < (r.buf.set r.head none).length
      rw [List.length_set]; exact hL
    · rw [hP]
      show (r.head + 1) % r.capacity < (r.buf.set r.head none).length
      rw [List.length_set]
      exact Nat.mod_lt _ hL
    · rw [hP]
      show r.size - 1 ≤ (r.buf.set r.head none).length
      rw [List.length_set]
      have := wf.size_le
      show r.size - 1 ≤ r.capacity
      omega
    · rw [hP]
      show r.tail = ((r.head + 1) % r.capacity + (r.size - 1)) % (r.buf.set r.head none).length
      rw [List.length_set]
      show r.tail = ((r.head + 1) % r.capacity + (r.size - 1)) % r.capacity
      rw [Nat.mod_add_mod]
      have harr : r.head + 1 + (r.size - 1) = r.head + r.size := by omega
      rw [harr, ← wf.tail_eq]
    · intro i hi
      have hi' : i < r.size - 1 := by rw [hP] at hi; exact hi
      rw [hslot i hi']
      exact wf.filled (i + 1) (by omega)
  · rw [hcontents, List.tail_cons]
    have hsz : (r.Pop).2.2.size = r.size - 1 := by rw [hP]
    show (List.range (r.Pop).2.2.size).filterMap (r.Pop).2.2.slot = _
    rw [hsz, hk']
    exact List.filterMap_congr fun i hi =>
      hslot i (by rw [hk']; exact List.mem_range.mp hi)

theorem backIdx_eq {r : RingBuffer T} (wf : Wf r) (h : 0 < r.size) :
    r.backIdx = (r.head + (r.size - 1)) % r.capacity := by
  have hL : 0 < r.capacity := wf.cap_pos
  rw [backIdx, wf.tail_eq]
  have h1 : (r.head + r.size) % r.capacity + r.capacity - 1
      = (r.head + r.size) % r.capacity + (r.capacity - 1) := by omega
  rw [h1, Nat.mod_add_mod]
  have h2 : r.head + r.size + (r.capacity - 1) = r.head + (r.size - 1) + r.capacity := by omega
  rw [h2, Nat.add_mod_right]

theorem back_spec {r : RingBuffer T} (wf : Wf r) (h : 0 < r.size) :
    (r.Back).1 = (contents r).getLast? ∧ (r.Back).2 = true := by
  have hne : ¬ r.size = 0 := Nat.pos_iff_ne_zero.mp h
  have hP : r.Back = (r.buf.getD r.backIdx none, true) := by
    unfold Back; rw [if_neg hne]
  obtain ⟨a, ha⟩ := Option.isSome_iff_exists.mp (wf.filled (r.size - 1) (by omega))
  have hback : r.buf.getD r.backIdx none = r.slot (r.size - 1) := by
    rw [backIdx_eq wf h]; rfl
  obtain ⟨k, hk⟩ : ∃ k, r.size = k + 1 := ⟨r.size - 1, by omega⟩
  have hk' : r.size - 1 = k := by omega
  have hcontents : contents r = (List.range k).filterMap r.slot ++ [a] := by
    show (List.range r.size).filterMap r.slot = _
    rw [hk, List.range_succ, List.filterMap_append]
    rw [hk'] at ha
    simp [ha]
  refine ⟨?_, by rw [hP]⟩
  rw [hP]
  show r.buf.getD r.backIdx none = (contents r).getLast?
  rw [hback, ha, hcontents, List.getLast?_concat]

theorem dropBack_spec {r : RingBuffer T} (wf : Wf r) (h : 0 < r.size) :
    Wf r.DropBack ∧ contents r.DropBack = (contents r).dropLast ∧
      r.DropBack.capacity = r.capacity ∧ r.DropBack.size = r.size - 1 := by
  have hL : 0 < r.capacity := wf.cap_pos
  have hne : ¬ r.size = 0 := Nat.pos_iff_ne_zero.mp h
  have hbidx := backIdx_eq wf h
  have hblt : r.backIdx < r.buf.length := by
    show r.backIdx < r.capacity
    rw [hbidx]; exact Nat.mod_lt _ hL
  have hP : r.DropBack
      = { buf := r.buf.set r.backIdx none, head := r.head,
          tail := r.backIdx, size := r.size - 1 } := by
    unfold DropBack; rw [if_neg hne]
  have hcap : r.DropBack.capacity = r.capacity := by
    rw [hP]
    show (r.buf.set r.backIdx none).length = r.capacity
    rw [List.length_set]; rfl
  have hslot : ∀ i, i < r.size - 1 → r.DropBack.slot i = r.slot i := by
    intro i hi
    have hidx : r.backIdx ≠ (r.head + i) % r.capacity := by
      rw [hbidx]
      intro e
      have : r.size - 1 = i :=
        mod_add_inj (Nat.lt_of_lt_of_le (by omega) wf.size_le)
          (Nat.lt_of_lt_of_le (by omega) wf.size_le) e
      omega
    rw [hP]
    show (r.buf.set r.backIdx none).getD
        ((r.head + i) % (r.buf.set r.backIdx none).length) none = r.slot i
    rw [List.length_set]
    show (r.buf.set r.backIdx none).getD ((r.head + i) % r.capacity) none = r.slot i
    unfold slot
    exact getD_set_ne _ _ _ _ _ hidx
  obtain ⟨a, ha⟩ := Option.isSome_iff_exists.mp (wf.filled (r.size - 1) (by omega))
  obtain ⟨k, hk⟩ : ∃ k, r.size = k + 1 := ⟨r.size - 1, by omega⟩
  have hk' : r.size - 1 = k := by omega
  have hcontents : contents r = (List.range k).filterMap r.slot ++ [a] := by
    show (List.range r.size).filterMap r.slot = _
    rw [hk, List.range_succ, List.filterMap_append]
    rw [hk'] at ha
    simp [ha]
  refine ⟨?_, ?_, hcap, by rw [hP]⟩
  · refine ⟨?_, ?_, ?_, ?_, ?_⟩
    · rw [hP]
      show 0 < (r.buf.set r.backIdx none).length
      rw [List.length_set]; exact hL
    · rw [hP]
      show r.head < (r.buf.set r.backIdx none).length
      rw [List.length_set]; exact wf.head_lt
    · rw [hP]
      show r.size - 1 ≤ (r.buf.set r.backIdx none).length
      rw [List.length_set]
      have := wf.size_le
      show r.size - 1 ≤ r.capacity
      omega
    · rw [hP]
      show r.backIdx = (r.head + (r.size - 1)) % (r.buf.set r.backIdx none).length
      rw [List.length_set]
      exact hbidx
    · intro i hi
      have hi' : i < r.size - 1 := by rw [hP] at hi; exact hi
      rw [hslot i hi']
      exact wf.filled i (by omega)
  · rw [hcontents, List.dropLast_concat]
    have hsz : r.DropBack.size = r.size - 1 := by rw [hP]
    show (List.range r.DropBack.size).filterMap r.DropBack.slot = _
    rw [hsz, hk']
    exact List.filterMap_congr fun i hi =>
      hslot i (by rw [hk']; exact List.mem_range.mp hi)

end RingBuffer

theorem runOps_spec {T : Type} : ∀ (ops : List (QOp T)) (r : RingBuffer T),
    RingBuffer.Wf r →
    RingBuffer.Wf (runOps r ops) ∧ (runOps r ops).capacity = r.capacity ∧
      RingBuffer.contents (runOps r ops) = runModel r.capacity (RingBuffer.contents r) ops := by
  intro ops
  induction ops with
  | nil =>
    intro r wf
    exact ⟨wf, rfl, rfl⟩
  | cons op rest ih =>
    intro r wf
    cases op with
    | push x =>
      by_cases hfull : r.size = r.capacity
      · have hp := RingBuffer.push_of_full x hfull
        have h1 : runOps r (QOp.push x :: rest) = runOps (r.Push x).1 rest := rfl
        rw [h1, hp]
        have hm : modelStep r.capacity (RingBuffer.contents r) (QOp.push x)
            = RingBuffer.contents r := by
          show (if (RingBuffer.contents r).length = r.capacity then RingBuffer.contents r
              else RingBuffer.contents r ++ [x]) = RingBuffer.contents r
          rw [RingBuffer.contents_length wf, if_pos hfull]
        have h2 : runModel r.capacity (RingBuffer.contents r) (QOp.push x :: rest)
            = runModel r.capacity (RingBuffer.contents r) rest := by
          show runModel r.capacity
              (modelStep r.capacity (RingBuffer.contents r) (QOp.push x)) rest = _
          rw [hm]
        rw [h2]
        exact ih r wf
      · have hlt : r.size < r.capacity := Nat.lt_of_le_of_ne wf.size_le hfull
        obtain ⟨_, wf', hc', hcap', hsz'⟩ := RingBuffer.push_spec x wf hlt
        have h1 : runOps r (QOp.push x :: rest) = runOps (r.Push x).1 rest := rfl
        have hm : modelStep r.capacity (RingBuffer.contents r) (QOp.push x)
            = RingBuffer.contents r ++ [x] := by
          show (if (RingBuffer.contents r).length = r.capacity then RingBuffer.contents r
              else RingBuffer.contents r ++ [x]) = RingBuffer.contents r ++ [x]
          rw [RingBuffer.contents_length wf, if_neg hfull]
        have h2 : runModel r.capacity (RingBuffer.contents r) (QOp.push x :: rest)
            = runModel r.capacity (RingBuffer.contents r ++ [x]) rest := by
          show runModel r.capacity
              (modelStep r.capacity (RingBuffer.contents r) (QOp.push x)) rest = _
          rw [hm]
        rw [h1, h2]
        obtain ⟨iw, ic, ih3⟩ := ih (r.Push x).1 wf'
        refine ⟨iw, by rw [ic, hcap'], ?_⟩
        rw [ih3, hcap', hc']
    | pop =>
      by_cases hz : r.size = 0
      · have hp := RingBuffer.pop_of_empty hz
        have hcz : RingBuffer.contents r = [] :=
          List.length_eq_zero.mp (by rw [RingBuffer.contents_length wf, hz])
        have h1 : runOps r (QOp.pop :: rest) = runOps (r.Pop).2.2 rest := rfl
        rw [h1, hp]
        have hm : modelStep r.capacity (RingBuffer.contents r) QOp.pop
            = RingBuffer.contents r := by
          show (RingBuffer.contents r).tail = RingBuffer.contents r
          rw [hcz]
          rfl
        have h2 : runModel r.capacity (RingBuffer.contents r) (QOp.pop :: rest)
            = runModel r.capacity (RingBuffer.contents r) rest := by
          show runModel r.capacity
              (modelStep r.capacity (RingBuffer.contents r) QOp.pop) rest = _
          rw [hm]
        rw [h2]
        exact ih r wf
      · have hpos : 0 < r.size := Nat.pos_of_ne_zero hz
        obtain ⟨_, _, wf', hc', hcap', hsz'⟩ := RingBuffer.pop_spec wf hpos
        have h1 : runOps r (QOp.pop :: rest) = runOps (r.Pop).2.2 rest := rfl
        have h2 : runModel r.capacity (RingBuffer.contents r) (QOp.pop :: rest)
            = runModel r.capacity (RingBuffer.contents r).tail rest := rfl
        rw [h1, h2]
        obtain ⟨iw, ic, ih3⟩ := ih (r.Pop).2.2 wf'
        refine ⟨iw, by rw [ic, hcap'], ?_⟩
        rw [ih3, hcap', hc']
    | dropBack =>
      by_cases hz : r.size = 0
      · have hp := RingBuffer.dropBack_of_empty hz
        have hcz : RingBuffer.contents r = [] :=
          List.length_eq_zero.mp (by rw [RingBuffer.contents_length wf, hz])
        have h1 : runOps r (QOp.dropBack :: rest) = runOps r.DropBack rest := rfl
        rw [h1, hp]
        have hm : modelStep r.capacity (RingBuffer.contents r) QOp.dropBack
            = RingBuffer.contents r := by
          show (RingBuffer.contents r).dropLast = RingBuffer.contents r
          rw [hcz]
          rfl
        have h2 : runModel r.capacity (RingBuffer.contents r) (QOp.dropBack :: rest)
            = runModel r.capacity (RingBuffer.contents r) rest := by
          show runModel r.capacity
              (modelStep r.capacity (RingBuffer.contents r) QOp.dropBack) rest = _
          rw [hm]
        rw [h2]
        exact ih r wf
      · have hpos : 0 < r.size := Nat.pos_of_ne_zero hz
        obtain ⟨wf', hc', hcap', hsz'⟩ := RingBuffer.dropBack_spec wf hpos
        have h1 : runOps r (QOp.dropBack :: rest) = runOps r.DropBack rest := rfl
        have h2 : runModel r.capacity (RingBuffer.contents r) (QOp.dropBack :: rest)
            = runModel r.capacity (RingBuffer.contents r).dropLast rest := rfl
        rw [h1, h2]
        obtain ⟨iw, ic, ih3⟩ := ih r.DropBack wf'
        refine ⟨iw, by rw [ic, hcap'], ?_⟩
        rw [ih3, hcap', hc']

end ringbuffer

namespace eth

open ringbuffer ringbuffer.RingBuffer

theorem winReconcile_nil (b : Block) : winReconcile [] b = [] := rfl

theorem winDropped_nil (b : Block) : winDropped [] b = [] := rfl

theorem winReconcile_concat_stop {b t : Block} (l : List Block)
    (h : b.ParentHash = t.Hash) : winReconcile (l ++ [t]) b = l ++ [t] := by
  unfold winReconcile
  rw [List.reverse_append]
  simp [List.dropWhile_cons, h]

theorem winReconcile_concat_go {b t : Block} (l : List Block)
    (h : ¬ b.ParentHash = t.Hash) : winReconcile (l ++ [t]) b = winReconcile l b := by
  unfold winReconcile
  rw [List.reverse_append]
  simp only [List.reverse_cons, List.reverse_nil, List.nil_append, List.singleton_append,
    List.dropWhile_cons]
  have : (b.ParentHash == t.Hash) = false := by
    exact beq_false_of_ne h
  rw [this]
  rfl

theorem winDropped_concat_stop {b t : Block} (l : List Block)
    (h : b.ParentHash = t.Hash) : winDropped (l ++ [t]) b = [] := by
  unfold winDropped
  rw [List.reverse_append]
  simp [List.takeWhile_cons, h]

theorem winDropped_concat_go {b t : Block} (l : List Block)
    (h : ¬ b.ParentHash = t.Hash) : winDropped (l ++ [t]) b = t :: winDropped l b := by
  unfold winDropped
  rw [List.reverse_append]
  simp only [List.reverse_cons, List.reverse_nil, List.nil_append, List.singleton_append,
    List.takeWhile_cons]
  have : (b.ParentHash == t.Hash) = false := by
    exact beq_false_of_ne h
  rw [this]
  rfl

theorem reconcileAux_refines (b : Block) :
    ∀ (fuel : Nat) (rb : RingBuffer Block), Wf rb → rb.size ≤ fuel →
      contents (reconcileAux fuel rb b).1 = winReconcile (contents rb) b ∧
        Wf (reconcileAux fuel rb b).1 ∧
        (reconcileAux fuel rb b).1.capacity = rb.capacity ∧
        (reconcileAux fuel rb b).2 = winDropped (contents rb) b := by
  intro fuel
  induction fuel with
  | zero =>
    intro rb wf hle
    have hz : rb.size = 0 := Nat.le_zero.mp hle
    have hc : contents rb = [] :=
      List.length_eq_zero.mp (by rw [contents_length wf, hz])
    refine ⟨?_, wf, rfl, ?_⟩
    · show contents rb = winReconcile (contents rb) b
      rw [hc]
      exact (winReconcile_nil b).symm
    · show ([] : List Block) = winDropped (contents rb) b
      rw [hc]
      exact (winDropped_nil b).symm
  | succ fuel ih =>
    intro rb wf hle
    by_cases hsz : 0 < rb.size
    · have hlen : 0 < (contents rb).length := by rw [contents_length wf]; exact hsz
      rcases List.eq_nil_or_concat (contents rb) with hnil | ⟨l, t, hsplit⟩
      · rw [hnil] at hlen; simp at hlen
      · rw [List.concat_eq_append] at hsplit
        have hback := (back_spec wf hsz).1
        rw [hsplit, List.getLast?_concat] at hback
        have hSize : rb.Size > 0 := hsz
        by_cases hpar : b.ParentHash = t.Hash
        · have hstep : reconcileAux (fuel + 1) rb b = (rb, []) := by
            show (if rb.Size > 0 then _ else _) = _
            rw [if_pos hSize]
            show (if b.ParentHash = (((rb.Back).1).getD default).Hash then _ else _) = _
            rw [hback]
            show (if b.ParentHash = t.Hash then (rb, []) else _) = _
            rw [if_pos hpar]
          rw [hstep, hsplit]
          exact ⟨(winReconcile_concat_stop l hpar).symm, wf, rfl,
            (winDropped_concat_stop l hpar).symm⟩
        · obtain ⟨wfD, hcD, hcapD, hszD⟩ := dropBack_spec wf hsz
          have hstep : reconcileAux (fuel + 1) rb b
              = ((reconcileAux fuel rb.DropBack b).1,
                 t :: (reconcileAux fuel rb.DropBack b).2) := by
            show (if rb.Size > 0 then _ else _) = _
            rw [if_pos hSize]
            show (if b.ParentHash = (((rb.Back).1).getD default).Hash then _ else _) = _
            rw [hback]
            show (if b.ParentHash = t.Hash then _
                  else ((reconcileAux fuel rb.DropBack b).1,
                        t :: (reconcileAux fuel rb.DropBack b).2)) = _
            rw [if_neg hpar]
          have hleD : rb.DropBack.size ≤ fuel := by
            rw [hszD]; omega
          obtain ⟨ih1, ih2, ih3, ih4⟩ := ih rb.DropBack wfD hleD
          have hcDrop : contents rb.DropBack = l := by
            rw [hcD, hsplit, List.dropLast_concat]
          rw [hstep, hsplit]
          refine ⟨?_, ih2, ?_, ?_⟩
          · show contents (reconcileAux fuel rb.DropBack b).1 = _
            rw [ih1, hcDrop, winReconcile_concat_go l hpar]
          · show (reconcileAux fuel rb.DropBack b).1.capacity = rb.capacity
            rw [ih3, hcapD]
          · show t :: (reconcileAux fuel rb.DropBack b).2 = _
            rw [ih4, hcDrop, winDropped_concat_go l hpar]
    · have hz : rb.size = 0 := by omega
      have hc : contents rb = [] :=
        List.length_eq_zero.mp (by rw [contents_length wf, hz])
      have hSize : ¬ rb.Size > 0 := hsz
      have hstep : reconcileAux (fuel + 1) rb b = (rb, []) := by
        show (if rb.Size > 0 then _ else _) = _
        rw [if_neg hSize]
      rw [hstep]
      refine ⟨?_, wf, rfl, ?_⟩
      · show contents rb = winReconcile (contents rb) b
        rw [hc]
        exact (winReconcile_nil b).symm
      · show ([] : List Block) = winDropped (contents rb) b
        rw [hc]
        exact (winDropped_nil b).symm

theorem reorgStep_refines {rb : RingBuffer Block} (b : Block) (wf : Wf rb) :
    contents (reorgStep rb b).rb = (winStep rb.capacity (contents rb) b).1 ∧
      (reorgStep rb b).emitted = (winStep rb.capacity (contents rb) b).2.1 ∧
      (reorgStep rb b).dropped = (winStep rb.capacity (contents rb) b).2.2 ∧
      Wf (reorgStep rb b).rb ∧ (reorgStep rb b).rb.capacity = rb.capacity ∧
      (reorgStep rb b).pushedOk = true := by
  obtain ⟨h1, wf1, hcap1, h2⟩ := reconcileAux_refines b rb.Size rb wf (Nat.le_refl _)
  set rc := reconcileAux rb.Size rb b with hrc
  set w1 := winReconcile (contents rb) b with hw1
  have hlen1 : w1.length = rc.1.size := by
    rw [← h1]; exact contents_length wf1
  by_cases hfull : rc.1.size = rc.1.capacity
  · have hfullb : rc.1.IsFull = true := isFull_iff.mpr hfull
    have hcond : w1.length = rb.capacity := by rw [hlen1, hfull, hcap1]
    have hstep : reorgStep rb b
        = ⟨((rc.1.Pop).2.2.Push b).1, (rc.1.Pop).1, ((rc.1.Pop).2.2.Push b).2, rc.2⟩ := by
      simp only [reorgStep, ← hrc, hfullb]
      rfl
    have hszpos : 0 < rc.1.size := by
      rw [hfull, hcap1]; exact wf.cap_pos
    obtain ⟨hp1, hp2, wf2, hp4, hp5, hp6⟩ := pop_spec wf1 hszpos
    have hsz2 : (rc.1.Pop).2.2.size < (rc.1.Pop).2.2.capacity := by
      rw [hp6, hp5]
      have := wf1.cap_pos
      omega
    obtain ⟨hq1, wf3, hq3, hq4, hq5⟩ := push_spec b wf2 hsz2
    have hwin : winStep rb.capacity (contents rb) b
        = (w1.tail ++ [b], w1.head?, winDropped (contents rb) b) := by
      unfold winStep
      rw [← hw1, if_pos hcond]
    rw [hstep, hwin]
    refine ⟨?_, ?_, h2, wf3, ?_, hq1⟩
    · show contents ((rc.1.Pop).2.2.Push b).1 = w1.tail ++ [b]
      rw [hq3, hp4, h1]
    · show (rc.1.Pop).1 = w1.head?
      rw [hp1, h1]
    · show ((rc.1.Pop).2.2.Push b).1.capacity = rb.capacity
      rw [hq4, hp5, hcap1]
  · have hfullb : rc.1.IsFull = false := by
      have : (rc.1.size == rc.1.capacity) = false := beq_false_of_ne hfull
      exact this
    have hcond : ¬ w1.length = rb.capacity := by
      rw [hlen1, ← hcap1]; exact hfull
    have hstep : reorgStep rb b = ⟨(rc.1.Push b).1, none, (rc.1.Push b).2, rc.2⟩ := by
      simp only [reorgStep, ← hrc, hfullb]
      rfl
    have hszlt : rc.1.size < rc.1.capacity := Nat.lt_of_le_of_ne wf1.size_le hfull
    obtain ⟨hq1, wf3, hq3, hq4, hq5⟩ := push_spec b wf1 hszlt
    have hwin : winStep rb.capacity (contents rb) b
        = (w1 ++ [b], none, winDropped (contents rb) b) := by
      unfold winStep
      rw [← hw1, if_neg hcond]
    rw [hstep, hwin]
    refine ⟨?_, rfl, h2, wf3, ?_, hq1⟩
    · show contents (rc.1.Push b).1 = w1 ++ [b]
      rw [hq3, h1]
    · show (rc.1.Push b).1.capacity = rb.capacity
      rw [hq4, hcap1]

theorem reorgRun_refines : ∀ (bs : List Block) (rb : RingBuffer Block), Wf rb →
    contents (reorgRun rb bs).1 = (winRun rb.capacity (contents rb) bs).1 ∧
      (reorgRun rb bs).2.1 = (winRun rb.capacity (contents rb) bs).2.1 ∧
      (reorgRun rb bs).2.2 = (winRun rb.capacity (contents rb) bs).2.2 ∧
      Wf (reorgRun rb bs).1 ∧ (reorgRun rb bs).1.capacity = rb.capacity := by
  intro bs
  induction bs with
  | nil =>
    intro rb wf
    exact ⟨rfl, rfl, rfl, wf, rfl⟩
  | cons b rest ih =>
    intro rb wf
    obtain ⟨s1, s2, s3, swf, scap, _⟩ := reorgStep_refines b wf
    obtain ⟨r1, r2, r3, rwf, rcap⟩ := ih (reorgStep rb b).rb swf
    rw [scap] at r1 r2 r3
    rw [s1] at r1 r2 r3
    have hrun : reorgRun rb (b :: rest)
        = ((reorgRun (reorgStep rb b).rb rest).1,
           (reorgStep rb b).emitted.toList ++ (reorgRun (reorgStep rb b).rb rest).2.1,
           (reorgStep rb b).dropped ++ (reorgRun (reorgStep rb b).rb rest).2.2) := rfl
    have hwrun : winRun rb.capacity (contents rb) (b :: rest)
        = ((winRun rb.capacity (winStep rb.capacity (contents rb) b).1 rest).1,
           (winStep rb.capacity (contents rb) b).2.1.toList
             ++ (winRun rb.capacity (winStep rb.capacity (contents rb) b).1 rest).2.1,
           (winStep rb.capacity (contents rb) b).2.2
             ++ (winRun rb.capacity (winStep rb.capacity (contents rb) b).1 rest).2.2) := rfl
    rw [hrun, hwrun]
    refine ⟨r1, ?_, ?_, rwf, ?_⟩
    · rw [s2, r2]
    · rw [s3, r3]
    · rw [rcap, scap]

theorem ReorgFilter_eq_winRun (depth : Nat) (bs : List Block) :
    ReorgFilter depth bs = (winRun (max 1 depth) [] bs).2.1 := by
  have h := (reorgRun_refines bs (ringbuffer.New Block depth) (wf_new depth)).2.1
  unfold ReorgFilter
  rw [h, capacity_new, contents_new]

theorem winReconcile_attach {w : List Block} {b : Block}
    (h : ∀ t, w.getLast? = some t → b.ParentHash = t.Hash) :
    winReconcile w b = w ∧ winDropped w b = [] := by
  rcases List.eq_nil_or_concat w with hnil | ⟨l, t, hsplit⟩
  · subst hnil
    exact ⟨rfl, rfl⟩
  · rw [List.concat_eq_append] at hsplit
    subst hsplit
    have hpar : b.ParentHash = t.Hash := h t (List.getLast?_concat l)
    exact ⟨winReconcile_concat_stop l hpar, winDropped_concat_stop l hpar⟩

theorem winReconcile_drop_orphans {b : Block} :
    ∀ (O w : List Block), (∀ o ∈ O, ¬ b.ParentHash = o.Hash) →
      (∀ t, w.getLast? = some t → b.ParentHash = t.Hash) →
      winReconcile (w ++ O) b = w ∧ winDropped (w ++ O) b = O.reverse := by
  intro O
  induction O using List.reverseRecOn with
  | nil =>
    intro w _ hstop
    simpa using winReconcile_attach hstop
  | append_singleton l o ih =>
    intro w hO hstop
    have ho : ¬ b.ParentHash = o.Hash := hO o (by simp)
    have hO' : ∀ x ∈ l, ¬ b.ParentHash = x.Hash := fun x hx => hO x (by simp [hx])
    have hassoc : w ++ (l ++ [o]) = (w ++ l) ++ [o] := (List.append_assoc w l [o]).symm
    obtain ⟨ih1, ih2⟩ := ih w hO' hstop
    constructor
    · rw [hassoc, winReconcile_concat_go _ ho, ih1]
    · rw [hassoc, winDropped_concat_go _ ho, ih2, List.reverse_append]
      rfl

theorem winRun_chain (D : Nat) (hD : 0 < D) :
    ∀ (bs w : List Block), Linked (w ++ bs) → w.length ≤ D →
      winRun D w bs = ((w ++ bs).drop (w.length + bs.length - D),
                       (w ++ bs).take (w.length + bs.length - D), []) := by
  intro bs
  induction bs with
  | nil =>
    intro w hl hw
    have h0 : w.length + ([] : List Block).length - D = 0 := by
      simp only [List.length_nil]
      omega
    rw [h0]
    simp [winRun]
  | cons b rest ih =>
    intro w hl hw
    have hattach : ∀ t, w.getLast? = some t → b.ParentHash = t.Hash := by
      intro t ht
      have := (List.chain'_append.mp hl).2.2
      exact this t ht b rfl
    obtain ⟨hrec, hdrop⟩ := winReconcile_attach hattach
    have hrun : winRun D w (b :: rest)
        = ((winRun D (winStep D w b).1 rest).1,
           (winStep D w b).2.1.toList ++ (winRun D (winStep D w b).1 rest).2.1,
           (winStep D w b).2.2 ++ (winRun D (winStep D w b).1 rest).2.2) := rfl
    by_cases hfull : w.length = D
    · have hstep : winStep D w b = (w.tail ++ [b], w.head?, []) := by
        unfold winStep
        rw [hrec, hdrop, if_pos hfull]
      have hs1 : (winStep D w b).1 = w.tail ++ [b] := by rw [hstep]
      have hs2 : (winStep D w b).2.1 = w.head? := by rw [hstep]
      have hs3 : (winStep D w b).2.2 = ([] : List Block) := by rw [hstep]
      cases w with
      | nil =>
        rw [List.length_nil] at hfull
        omega
      | cons h wt =>
        have hlen : wt.length + 1 = D := by
          simpa using hfull
        have hlink' : Linked ((wt ++ [b]) ++ rest) := by
          have : Linked (wt ++ b :: rest) := by
            have := List.Chain'.tail hl
            simpa using this
          simpa [List.append_assoc] using this
        have hlw : (wt ++ [b]).length ≤ D := by
          simp only [List.length_append, List.length_cons, List.length_nil]
          omega
        have hIH := ih (wt ++ [b]) hlink' hlw
        rw [hrun, hs1, hs2, hs3]
        show ((winRun D (wt ++ [b]) rest).1,
              [h] ++ (winRun D (wt ++ [b]) rest).2.1,
              [] ++ (winRun D (wt ++ [b]) rest).2.2) = _
        rw [hIH]
        have e1 : (wt ++ [b]).length + rest.length - D = rest.length := by
          simp only [List.length_append, List.length_cons, List.length_nil]
          omega
        have e2 : (h :: wt).length + (b :: rest).length - D = rest.length + 1 := by
          simp only [List.length_cons]
          omega
        have e3 : (wt ++ [b]) ++ rest = wt ++ b :: rest := by
          simp [List.append_assoc]
        have e4 : (h :: wt) ++ b :: rest = h :: (wt ++ b :: rest) := rfl
        rw [e1, e2, e3, e4]
        simp only [Prod.mk.injEq]
        refine ⟨?_, ?_, rfl⟩
        · rw [List.drop_succ_cons]
        · rw [List.take_succ_cons]
          rfl
    · have hstep : winStep D w b = (w ++ [b], none, []) := by
        unfold winStep
        rw [hrec, hdrop, if_neg hfull]
      have hs1 : (winStep D w b).1 = w ++ [b] := by rw [hstep]
      have hs2 : (winStep D w b).2.1 = (none : Option Block) := by rw [hstep]
      have hs3 : (winStep D w b).2.2 = ([] : List Block) := by rw [hstep]
      have hlink' : Linked ((w ++ [b]) ++ rest) := by
        simpa [List.append_assoc] using hl
      have hlw : (w ++ [b]).length ≤ D := by
        simp only [List.length_append, List.length_cons, List.length_nil]
        omega
      have hIH := ih (w ++ [b]) hlink' hlw
      rw [hrun, hs1, hs2, hs3]
      show ((winRun D (w ++ [b]) rest).1,
            [] ++ (winRun D (w ++ [b]) rest).2.1,
            [] ++ (winRun D (w ++ [b]) rest).2.2) = _
      rw [hIH]
      have e1 : (w ++ [b]).length + rest.length = w.length + (b :: rest).length := by
        simp only [List.length_append, List.length_cons, List.length_nil]
        omega
      have e3 : (w ++ [b]) ++ rest = w ++ b :: rest := by
        simp [List.append_assoc]
      rw [e1, e3]
      simp

theorem winRun_append (D : Nat) :
    ∀ (u : List Block) (w v : List Block),
      winRun D w (u ++ v)
        = ((winRun D (winRun D w u).1 v).1,
           (winRun D w u).2.1 ++ (winRun D (winRun D w u).1 v).2.1,
           (winRun D w u).2.2 ++ (winRun D (winRun D w u).1 v).2.2) := by
  intro u
  induction u with
  | nil =>
    intro w v
    show winRun D w v = _
    exact rfl
  | cons b u ih =>
    intro w v
    have hL : winRun D w ((b :: u) ++ v)
        = ((winRun D (winStep D w b).1 (u ++ v)).1,
           (winStep D w b).2.1.toList ++ (winRun D (winStep D w b).1 (u ++ v)).2.1,
           (winStep D w b).2.2 ++ (winRun D (winStep D w b).1 (u ++ v)).2.2) := rfl
    have hR : winRun D w (b :: u)
        = ((winRun D (winStep D w b).1 u).1,
           (winStep D w b).2.1.toList ++ (winRun D (winStep D w b).1 u).2.1,
           (winStep D w b).2.2 ++ (winRun D (winStep D w b).1 u).2.2) := rfl
    rw [hL, hR, ih (winStep D w b).1 v]
    simp [List.append_assoc]

theorem winRun_peel (D : Nat) (W2 W3 : List Block) (c : Block) (C1' Od : List Block)
    (h2 : winReconcile W2 c = W3) (hd2 : winDropped W2 c = Od)
    (h3 : winReconcile W3 c = W3) (hd3 : winDropped W3 c = []) :
    (winRun D W2 (c :: C1')).1 = (winRun D W3 (c :: C1')).1 ∧
      (winRun D W2 (c :: C1')).2.1 = (winRun D W3 (c :: C1')).2.1 := by
  have e1 : (winStep D W2 c).1 = (winStep D W3 c).1 := by
    simp only [winStep]
    rw [h2, h3]
    by_cases hf : W3.length = D
    · rw [if_pos hf, if_pos hf]
    · rw [if_neg hf, if_neg hf]
  have e2 : (winStep D W2 c).2.1 = (winStep D W3 c).2.1 := by
    simp only [winStep]
    rw [h2, h3]
    by_cases hf : W3.length = D
    · rw [if_pos hf, if_pos hf]
    · rw [if_neg hf, if_neg hf]
  have hrunA : winRun D W2 (c :: C1')
      = ((winRun D (winStep D W2 c).1 C1').1,
         (winStep D W2 c).2.1.toList ++ (winRun D (winStep D W2 c).1 C1').2.1,
         (winStep D W2 c).2.2 ++ (winRun D (winStep D W2 c).1 C1').2.2) := rfl
  have hrunB : winRun D W3 (c :: C1')
      = ((winRun D (winStep D W3 c).1 C1').1,
         (winStep D W3 c).2.1.toList ++ (winRun D (winStep D W3 c).1 C1').2.1,
         (winStep D W3 c).2.2 ++ (winRun D (winStep D W3 c).1 C1').2.2) := rfl
  rw [hrunA, hrunB, e1, e2]
  exact ⟨rfl, rfl⟩

theorem winRun_fork (D : Nat) (hD : 0 < D) (C0 O C1 : List Block)
    (hC0 : C0 ≠ [])
    (hchain : Linked (C0 ++ C1)) (hO : Linked O)
    (hlink : ∀ o, O.head? = some o → ∃ t, C0.getLast? = some t ∧ o.ParentHash = t.Hash)
    (hdepth : O.length < D)
    (hdisj : ∀ o ∈ O, ∀ x ∈ C0, o.Hash ≠ x.Hash) :
    (winRun D [] (C0 ++ O ++ C1)).2.1
      = (C0 ++ C1).take (C0.length + O.length - D
          + ((C0.length - (C0.length + O.length - D)) + C1.length - D)) := by
  have hchainC0 : Linked C0 := by
    have h := (List.chain'_append.mp hchain).1
    exact h
  have hjunc : ∀ x ∈ C0.getLast?, ∀ y ∈ O.head?, y.ParentHash = x.Hash := by
    intro x hx y hy
    obtain ⟨t, ht, hpar⟩ := hlink y hy
    rw [ht] at hx
    have hx' : t = x := Option.some.inj hx
    rw [← hx']
    exact hpar
  have hchainC0O : Linked (C0 ++ O) := List.chain'_append.mpr ⟨hchainC0, hO, hjunc⟩
  have hA := winRun_chain D hD (C0 ++ O) [] (by simpa using hchainC0O) (by simp)
  have hidx1 : ([] : List Block).length + (C0 ++ O).length - D
      = C0.length + O.length - D := by
    simp
  have hA1 : (winRun D [] (C0 ++ O)).1 = (C0 ++ O).drop (C0.length + O.length - D) := by
    rw [hA]
    show (([] : List Block) ++ (C0 ++ O)).drop
        (([] : List Block).length + (C0 ++ O).length - D) = _
    rw [hidx1, List.nil_append]
  have hA2 : (winRun D [] (C0 ++ O)).2.1 = (C0 ++ O).take (C0.length + O.length - D) := by
    rw [hA]
    show (([] : List Block) ++ (C0 ++ O)).take
        (([] : List Block).length + (C0 ++ O).length - D) = _
    rw [hidx1, List.nil_append]
  have hzle : C0.length + O.length - D ≤ C0.length := by omega
  cases C1 with
  | nil =>
    simp only [List.append_nil]
    rw [hA2]
    rw [List.take_append_of_le_length hzle]
    congr 1
    simp only [List.length_nil]
    omega
  | cons c C1' =>
    rw [winRun_append]
    -- facts about the window after processing C0 ++ O
    have hW2 : (C0 ++ O).drop (C0.length + O.length - D)
        = C0.drop (C0.length + O.length - D) ++ O :=
      List.drop_append_of_le_length hzle
    have hlenW3 : (C0.drop (C0.length + O.length - D)).length
        = C0.length - (C0.length + O.length - D) := List.length_drop _ _
    have hn0 : 0 < C0.length := List.length_pos.mpr hC0
    have hW3ne : C0.drop (C0.length + O.length - D) ≠ [] := by
      apply List.length_pos.mp
      rw [hlenW3]
      omega
    obtain ⟨l0, t, hct⟩ : ∃ l0 t, C0 = l0 ++ [t] := by
      rcases List.eq_nil_or_concat C0 with h0 | ⟨l0, t, hct⟩
      · exact absurd h0 hC0
      · rw [List.concat_eq_append] at hct
        exact ⟨l0, t, hct⟩
    have ht : C0.getLast? = some t := by rw [hct, List.getLast?_concat]
    have htmem : t ∈ C0 := by rw [hct]; simp
    have hcpar : c.ParentHash = t.Hash := by
      have hj := (List.chain'_append.mp hchain).2.2
      exact hj t ht c rfl
    have hlast : (C0.drop (C0.length + O.length - D)).getLast? = C0.getLast? := by
      conv_rhs => rw [← List.take_append_drop (C0.length + O.length - D) C0]
      rw [List.getLast?_append_of_ne_nil _ hW3ne]
    have horph : ∀ o ∈ O, ¬ c.ParentHash = o.Hash := by
      intro o ho he
      have hoeq : o.Hash = t.Hash := by rw [← he]; exact hcpar
      exact hdisj o ho t htmem hoeq
    have hstopW3 : ∀ t', (C0.drop (C0.length + O.length - D)).getLast? = some t'
        → c.ParentHash = t'.Hash := by
      intro t' ht'
      rw [hlast, ht] at ht'
      rw [← Option.some.inj ht']
      exact hcpar
    obtain ⟨hrecW2, hdropW2⟩ :=
      winReconcile_drop_orphans O (C0.drop (C0.length + O.length - D)) horph hstopW3
    obtain ⟨hrecW3, hdropW3⟩ := winReconcile_attach (b := c) hstopW3
    obtain ⟨hp1, hp2⟩ := winRun_peel D (C0.drop (C0.length + O.length - D) ++ O)
      (C0.drop (C0.length + O.length - D)) c C1' O.reverse hrecW2 hdropW2 hrecW3 hdropW3
    have hchainW3 : Linked (C0.drop (C0.length + O.length - D) ++ c :: C1') := by
      have hx : Linked (C0.take (C0.length + O.length - D)
          ++ (C0.drop (C0.length + O.length - D) ++ c :: C1')) := by
        rw [← List.append_assoc, List.take_append_drop]
        exact hchain
      exact (List.chain'_append.mp hx).2.1
    have hlenle : (C0.drop (C0.length + O.length - D)).length ≤ D := by
      rw [hlenW3]; omega
    have hB := winRun_chain D hD (c :: C1') (C0.drop (C0.length + O.length - D))
      hchainW3 hlenle
    have hB2 : (winRun D (C0.drop (C0.length + O.length - D)) (c :: C1')).2.1
        = (C0.drop (C0.length + O.length - D) ++ c :: C1').take
            ((C0.length - (C0.length + O.length - D)) + C1'.length.succ - D) := by
      rw [hB]
      show (C0.drop (C0.length + O.length - D) ++ c :: C1').take
          ((C0.drop (C0.length + O.length - D)).length + (c :: C1').length - D) = _
      rw [hlenW3]
      rfl
    rw [hA2, hA1, hW2, hp2, hB2]
    have hfirst : (C0 ++ O).take (C0.length + O.length - D)
        = (C0 ++ c :: C1').take (C0.length + O.length - D) := by
      rw [List.take_append_of_le_length hzle, List.take_append_of_le_length hzle]
    have hsecond : C0.drop (C0.length + O.length - D) ++ c :: C1'
        = (C0 ++ c :: C1').drop (C0.length + O.length - D) := by
      rw [List.drop_append_of_le_length hzle]
    rw [hfirst, hsecond, ← List.take_add]
    rfl

theorem head?_dropWhile_not {α : Type _} (p : α → Bool) :
    ∀ (l : List α) (a : α), (l.dropWhile p).head? = some a → p a = false := by
  intro l
  induction l with
  | nil => intro a h; simp [List.dropWhile] at h
  | cons x xs ih =>
    intro a h
    rw [List.dropWhile_cons] at h
    by_cases hx : p x = true
    · rw [if_pos hx] at h
      exact ih a h
    · rw [if_neg hx] at h
      have : x = a := by simpa using h
      rw [← this]
      exact Bool.eq_false_iff.mpr hx

theorem winReconcile_append_dropped (w : List Block) (b : Block) :
    winReconcile w b ++ (winDropped w b).reverse = w := by
  unfold winReconcile winDropped
  conv_rhs => rw [← List.reverse_reverse w]
  conv_rhs =>
    rw [← List.takeWhile_append_dropWhile (fun t => !(b.ParentHash == t.Hash)) w.reverse]
  rw [List.reverse_append]

theorem winReconcile_last_attach (w : List Block) (b : Block) :
    ∀ t, (winReconcile w b).getLast? = some t → b.ParentHash = t.Hash := by
  intro t ht
  unfold winReconcile at ht
  rw [List.getLast?_reverse] at ht
  have hp := head?_dropWhile_not _ _ _ ht
  have : (b.ParentHash == t.Hash) = true := by
    cases hbeq : (b.ParentHash == t.Hash) with
    | true => rfl
    | false => rw [hbeq] at hp; simp at hp
  exact eq_of_beq this

theorem winReconcile_linked {w : List Block} (b : Block) (hw : Linked w) :
    Linked (winReconcile w b) := by
  have := winReconcile_append_dropped w b
  rw [← this] at hw
  exact (List.chain'_append.mp hw).1

theorem winReconcile_sublist (w : List Block) (b : Block) :
    (winReconcile w b).Sublist w := by
  have h := winReconcile_append_dropped w b
  have := List.sublist_append_left (winReconcile w b) (winDropped w b).reverse
  rwa [h] at this

theorem winReconcile_length_le (w : List Block) (b : Block) :
    (winReconcile w b).length ≤ w.length :=
  (winReconcile_sublist w b).length_le

theorem winStep_invariant (D : Nat) (hD : 0 < D) (w : List Block) (b : Block)
    (hw : Linked w) (hlen : w.length ≤ D) :
    Linked (winStep D w b).1 ∧ (winStep D w b).1.length ≤ D ∧
      (winStep D w b).1.Sublist (w ++ [b]) := by
  have hl1 : Linked (winReconcile w b) := winReconcile_linked b hw
  have hs1 : (winReconcile w b).Sublist w := winReconcile_sublist w b
  have hle1 : (winReconcile w b).length ≤ w.length := winReconcile_length_le w b
  have hattach : ∀ t, (winReconcile w b).getLast? = some t → b.ParentHash = t.Hash :=
    winReconcile_last_attach w b
  unfold winStep
  by_cases hf : (winReconcile w b).length = D
  · rw [if_pos hf]
    refine ⟨?_, ?_, ?_⟩
    · show Linked ((winReconcile w b).tail ++ [b])
      apply List.chain'_append.mpr
      refine ⟨List.Chain'.tail hl1, List.chain'_singleton b, ?_⟩
      intro x hx y hy
      have hy' : b = y := by simpa using hy
      subst hy'
      apply hattach
      rcases List.eq_nil_or_concat (winReconcile w b) with h0 | ⟨l, u, hu⟩
      · rw [h0] at hx; simp at hx
      · rw [List.concat_eq_append] at hu
        rw [hu] at hx ⊢
        cases l with
        | nil => simp at hx
        | cons z zs =>
          rw [List.getLast?_concat]
          have : (z :: zs ++ [u]).tail = zs ++ [u] := rfl
          rw [this] at hx
          rw [List.getLast?_concat] at hx
          exact hx
    · show ((winReconcile w b).tail ++ [b]).length ≤ D
      rw [List.length_append]
      have : (winReconcile w b).tail.length = (winReconcile w b).length - 1 :=
        List.length_tail _
      rw [this, hf]
      simp
      omega
    · show ((winReconcile w b).tail ++ [b]).Sublist (w ++ [b])
      exact ((List.tail_sublist _).trans hs1).append_right [b]
  · rw [if_neg hf]
    refine ⟨?_, ?_, ?_⟩
    · show Linked (winReconcile w b ++ [b])
      apply List.chain'_append.mpr
      refine ⟨hl1, List.chain'_singleton b, ?_⟩
      intro x hx y hy
      have hy' : b = y := by simpa using hy
      subst hy'
      exact hattach x hx
    · show (winReconcile w b ++ [b]).length ≤ D
      rw [List.length_append]
      simp only [List.length_cons, List.length_nil]
      omega
    · show (winReconcile w b ++ [b]).Sublist (w ++ [b])
      exact hs1.append_right [b]

theorem winRun_invariant (D : Nat) (hD : 0 < D) :
    ∀ (bs w : List Block), Linked w → w.length ≤ D →
      Linked (winRun D w bs).1 ∧ (winRun D w bs).1.length ≤ D ∧
        (winRun D w bs).1.Sublist (w ++ bs) := by
  intro bs
  induction bs with
  | nil =>
    intro w hw hlen
    refine ⟨hw, hlen, ?_⟩
    show w.Sublist (w ++ [])
    rw [List.append_nil]
  | cons b rest ih =>
    intro w hw hlen
    obtain ⟨h1, h2, h3⟩ := winStep_invariant D hD w b hw hlen
    obtain ⟨r1, r2, r3⟩ := ih (winStep D w b).1 h1 h2
    have hrun : (winRun D w (b :: rest)).1 = (winRun D (winStep D w b).1 rest).1 := rfl
    rw [hrun]
    refine ⟨r1, r2, ?_⟩
    have : ((winStep D w b).1 ++ rest).Sublist ((w ++ [b]) ++ rest) :=
      h3.append_right rest
    have hassoc : (w ++ [b]) ++ rest = w ++ b :: rest := by
      simp [List.append_assoc]
    rw [hassoc] at this
    exact r3.trans this

theorem winStep_emit (D : Nat) (w : List Block) (b B : Block)
    (hlen : w.length ≤ D) (he : (winStep D w b).2.1 = some B) :
    w.length = D ∧ winReconcile w b = w ∧ w.head? = some B ∧
      (∀ t, w.getLast? = some t → b.ParentHash = t.Hash) := by
  simp only [winStep] at he
  by_cases hf : (winReconcile w b).length = D
  · rw [if_pos hf] at he
    have hlew : (winReconcile w b).length ≤ w.length := winReconcile_length_le w b
    have hwlen : w.length = D := Nat.le_antisymm hlen (by rw [← hf]; exact hlew)
    have happ := winReconcile_append_dropped w b
    have hlen0 : (winDropped w b).reverse.length = 0 := by
      have hc := congrArg List.length happ
      rw [List.length_append] at hc
      omega
    have hdr : (winDropped w b).reverse = [] := List.length_eq_zero.mp hlen0
    rw [hdr, List.append_nil] at happ
    refine ⟨hwlen, happ, ?_, ?_⟩
    · rw [← happ]
      exact he
    · intro t ht
      apply winReconcile_last_attach w b
      rw [happ]
      exact ht
  · rw [if_neg hf] at he
    simp at he

theorem winStep_count (D : Nat) (w : List Block) (b x : Block) :
    (winStep D w b).2.1.toList.count x + (winStep D w b).1.count x
      + (winStep D w b).2.2.count x = (w ++ [b]).count x := by
  have happ := winReconcile_append_dropped w b
  have hcount1 : (winReconcile w b).count x + (winDropped w b).count x = w.count x := by
    have hc := congrArg (List.count x) happ
    rw [List.count_append, List.count_reverse] at hc
    exact hc
  simp only [winStep]
  by_cases hf : (winReconcile w b).length = D
  · rw [if_pos hf]
    cases hw1 : winReconcile w b with
    | nil =>
      rw [hw1] at hcount1
      simp only [List.count_nil, Nat.zero_add] at hcount1
      show ([] : List Block).head?.toList.count x + (([] : List Block).tail ++ [b]).count x
          + (winDropped w b).count x = (w ++ [b]).count x
      simp only [List.head?_nil, Option.toList_none, List.count_nil, List.tail_nil,
        List.nil_append, List.count_append, Nat.zero_add]
      omega
    | cons hB t1 =>
      show (hB :: t1).head?.toList.count x + ((hB :: t1).tail ++ [b]).count x
          + (winDropped w b).count x = (w ++ [b]).count x
      rw [hw1] at hcount1
      simp only [List.head?_cons, Option.toList_some, List.tail_cons, List.count_append,
        List.count_cons, List.count_nil] at hcount1 ⊢
      omega
  · rw [if_neg hf]
    show (none : Option Block).toList.count x + (winReconcile w b ++ [b]).count x
        + (winDropped w b).count x = (w ++ [b]).count x
    simp only [Option.toList_none, List.count_nil, List.count_append, Nat.zero_add]
    omega

theorem winRun_count (D : Nat) : ∀ (bs w : List Block) (x : Block),
    (winRun D w bs).2.1.count x + (winRun D w bs).1.count x + (winRun D w bs).2.2.count x
      = (w ++ bs).count x := by
  intro bs
  induction bs with
  | nil =>
    intro w x
    simp [winRun]
  | cons b rest ih =>
    intro w x
    have hrun1 : (winRun D w (b :: rest)).1 = (winRun D (winStep D w b).1 rest).1 := rfl
    have hrun2 : (winRun D w (b :: rest)).2.1
        = (winStep D w b).2.1.toList ++ (winRun D (winStep D w b).1 rest).2.1 := rfl
    have hrun3 : (winRun D w (b :: rest)).2.2
        = (winStep D w b).2.2 ++ (winRun D (winStep D w b).1 rest).2.2 := rfl
    rw [hrun1, hrun2, hrun3]
    have hih := ih (winStep D w b).1 x
    have hstep := winStep_count D w b x
    have e2 : ((winStep D w b).1 ++ rest).count x
        = (winStep D w b).1.count x + rest.count x := List.count_append x _ _
    rw [e2] at hih
    rw [List.count_append] at hstep
    have e3 : List.count x (b :: rest) = List.count x rest + List.count x [b] := by
      simp [List.count_cons]
    simp only [List.count_append]
    rw [e3]
    omega

theorem streamRun_sublist : ∀ (rs : List (Option Block)) (cur : Int),
    (streamRun cur rs).Sublist (rs.filterMap id) := by
  intro rs
  induction rs with
  | nil =>
    intro cur
    show ([] : List Block).Sublist _
    simp
  | cons r rest ih =>
    intro cur
    cases r with
    | none =>
      have h : (List.filterMap id (none :: rest) : List Block) = rest.filterMap id := by
        simp
      have hs : streamRun cur (none :: rest) = streamRun cur rest := rfl
      rw [hs, h]
      exact ih cur
    | some b =>
      have h : List.filterMap id (some b :: rest) = b :: rest.filterMap id := by
        simp
      have hs : streamRun cur (some b :: rest)
          = if b.Number = cur then streamRun cur rest
            else b :: streamRun b.Number rest := rfl
      rw [hs, h]
      by_cases hb : b.Number = cur
      · rw [if_pos hb]
        exact (ih cur).trans (List.sublist_cons_self b _)
      · rw [if_neg hb]
        exact List.cons_sublist_cons.mpr (ih b.Number)

theorem streamRun_honest_mono : ∀ (rs : List (Option Block)) (cur : Int),
    (cur = -2 ∨ 0 ≤ cur) → honestResponses cur rs = true →
    List.Chain' (· < ·) ((streamRun cur rs).map Block.Number) ∧
      (∀ b, (streamRun cur rs).head? = some b → cur < b.Number) := by
  intro rs
  induction rs with
  | nil =>
    intro cur _ _
    refine ⟨?_, ?_⟩
    · show List.Chain' (· < ·) (([] : List Block).map Block.Number)
      simp
    · intro b hb
      have hb' : ([] : List Block).head? = some b := hb
      simp at hb'
  | cons r rest ih =>
    intro cur hcur hh
    cases r with
    | none =>
      have hh' : honestResponses cur rest = true := hh
      exact ih cur hcur hh'
    | some b =>
      have hh' := hh
      rw [honestResponses] at hh'
      obtain ⟨h1, h2⟩ := (Bool.and_eq_true _ _).mp hh'
      by_cases hb : b.Number = cur
      · have h2' : honestResponses cur rest = true := by
          rw [if_pos hb] at h2
          exact h2
        have hrw : streamRun cur (some b :: rest) = streamRun cur rest := by
          show (if b.Number = cur then streamRun cur rest
              else b :: streamRun b.Number rest) = _
          rw [if_pos hb]
        rw [hrw]
        exact ih cur hcur h2'
      · have h2' : honestResponses b.Number rest = true := by
          rw [if_neg hb] at h2
          exact h2
        have hbound : cur < b.Number ∧ 0 ≤ b.Number := by
          rcases hcur with hc2 | hge
          · have hc : cur + 1 = -1 := by omega
            rw [if_pos hc] at h1
            have h0 := of_decide_eq_true h1
            omega
          · have hc : ¬ cur + 1 = -1 := by omega
            rw [if_neg hc] at h1
            have heq : b.Number = cur + 1 := eq_of_beq h1
            omega
        obtain ⟨ihc, ihh⟩ := ih b.Number (Or.inr hbound.2) h2'
        have hrw : streamRun cur (some b :: rest) = b :: streamRun b.Number rest := by
          show (if b.Number = cur then streamRun cur rest
              else b :: streamRun b.Number rest) = _
          rw [if_neg hb]
        rw [hrw]
        refine ⟨?_, ?_⟩
        · rw [List.map_cons]
          apply List.chain'_cons'.mpr
          refine ⟨?_, ihc⟩
          intro y hy
          rw [List.head?_map] at hy
          cases hz : (streamRun b.Number rest).head? with
          | none => rw [hz] at hy; simp at hy
          | some z =>
            rw [hz] at hy
            have hy' : z.Number = y := by simpa using hy
            rw [← hy']
            exact ihh z hz
        · intro x hx
          have hx' : b = x := by simpa using hx
          rw [← hx']
          exact hbound.1

theorem doRequestWithRetry_cancelled :
    ∀ (pre rest : List AttemptOutcome),
      (∀ x ∈ pre, x = AttemptOutcome.transport false) →
      doRequestWithRetry (pre ++ AttemptOutcome.transport true :: rest)
        = (.error .cancelledPermanent, pre.length + 1) := by
  intro pre
  induction pre with
  | nil =>
    intro rest _
    show doRequestWithRetry (AttemptOutcome.transport true :: rest) = _
    show (if true then ((.error .cancelledPermanent, 1) :
        Except FetchError HttpResp × Nat) else _) = _
    rw [if_pos rfl]
    rfl
  | cons a pre ih =>
    intro rest hpre
    have ha : a = AttemptOutcome.transport false := hpre a (List.mem_cons_self a pre)
    subst ha
    have hpre' : ∀ x ∈ pre, x = AttemptOutcome.transport false :=
      fun x hx => hpre x (List.mem_cons_of_mem _ hx)
    show (if false then _
        else ((doRequestWithRetry (pre ++ AttemptOutcome.transport true :: rest)).1,
              (doRequestWithRetry (pre ++ AttemptOutcome.transport true :: rest)).2 + 1)) = _
    rw [if_neg (by simp)]
    rw [ih rest hpre']
    show (Except.error FetchError.cancelledPermanent, pre.length + 1 + 1)
        = (Except.error FetchError.cancelledPermanent, pre.length + 1 + 1)
    rfl

theorem take_fork_conclusions {C0 O C1 out : List Block} {n : Nat}
    (hout : out = (C0 ++ C1).take n)
    (hnd : ((C0 ++ O ++ C1).map Block.Hash).Nodup) :
    (∀ o ∈ O, o ∉ out) ∧
      (List.Chain' (· < ·) ((C0 ++ C1).map Block.Number) →
        List.Chain' (· < ·) (out.map Block.Number)) := by
  constructor
  · intro o ho hmem
    rw [hout] at hmem
    have hmem' : o ∈ C0 ++ C1 := List.take_subset n _ hmem
    rw [List.map_append, List.map_append] at hnd
    have hOmap : o.Hash ∈ O.map Block.Hash := List.mem_map_of_mem _ ho
    rcases List.mem_append.mp hmem' with h0 | h1
    · have hAB : ((C0.map Block.Hash ++ O.map Block.Hash)).Nodup := by
        have hsub : (C0.map Block.Hash ++ O.map Block.Hash).Sublist
            ((C0.map Block.Hash ++ O.map Block.Hash) ++ C1.map Block.Hash) :=
          List.sublist_append_left _ _
        exact hnd.sublist hsub
      have hdisj := (List.nodup_append.mp hAB).2.2
      exact hdisj (List.mem_map_of_mem _ h0) hOmap
    · have hdisj := (List.nodup_append.mp hnd).2.2
      have hin1 : o.Hash ∈ C0.map Block.Hash ++ O.map Block.Hash :=
        List.mem_append_right _ hOmap
      exact hdisj hin1 (List.mem_map_of_mem _ h1)
  · intro hc
    rw [hout, List.map_take]
    exact hc.take n

end eth

namespace gostrings

theorem dropWhile_fixpoint {α : Type _} (p : α → Bool) (l : List α)
    (h : ∀ a, l.head? = some a → p a = false) : l.dropWhile p = l := by
  cases l with
  | nil => rfl
  | cons a t =>
    have ha : p a = false := h a rfl
    rw [List.dropWhile_cons]
    simp [ha]

theorem goTrimSpace_idem (s : List Char) :
    goTrimSpace (goTrimSpace s) = goTrimSpace s := by
  unfold goTrimSpace
  have h1 : (((s.dropWhile isSpaceGo).reverse.dropWhile isSpaceGo).reverse).dropWhile isSpaceGo
      = ((s.dropWhile isSpaceGo).reverse.dropWhile isSpaceGo).reverse := by
    apply dropWhile_fixpoint
    intro a ha
    rw [List.head?_reverse] at ha
    have hBne : (s.dropWhile isSpaceGo).reverse.dropWhile isSpaceGo ≠ [] := by
      intro h0
      rw [h0] at ha
      simp at ha
    have hlastB : ((s.dropWhile isSpaceGo).reverse.dropWhile isSpaceGo).getLast?
        = (s.dropWhile isSpaceGo).reverse.getLast? := by
      conv_rhs =>
        rw [← List.takeWhile_append_dropWhile isSpaceGo (s.dropWhile isSpaceGo).reverse]
      rw [List.getLast?_append_of_ne_nil _ hBne]
    rw [hlastB, List.getLast?_reverse] at ha
    exact eth.head?_dropWhile_not isSpaceGo s a ha
  rw [h1, List.reverse_reverse]
  have h2 : ((s.dropWhile isSpaceGo).reverse.dropWhile isSpaceGo).dropWhile isSpaceGo
      = (s.dropWhile isSpaceGo).reverse.dropWhile isSpaceGo := by
    apply dropWhile_fixpoint
    intro a ha
    exact eth.head?_dropWhile_not isSpaceGo (s.dropWhile isSpaceGo).reverse a ha
  rw [h2]

end gostrings

namespace restapi

open gostrings

theorem validate_core (t : List Char) :
    (if (if t.take 2 = ['0', 'x'] then t.drop 2 else t).length ≠ 40 then
        (([] : List Char), false)
      else if ¬ hexDecodeOk (if t.take 2 = ['0', 'x'] then t.drop 2 else t) = true then
        ([], false)
      else ('0' :: 'x' :: (if t.take 2 = ['0', 'x'] then t.drop 2 else t), true))
    = (if t.length = 42 ∧ t.take 2 = ['0', 'x'] ∧ (t.drop 2).all isHexCharGo then
        ('0' :: 'x' :: t.drop 2, true)
      else if t.length = 40 ∧ t.all isHexCharGo then ('0' :: 'x' :: t, true)
      else ([], false)) := by
  by_cases hp : t.take 2 = ['0', 'x']
  · simp only [if_pos hp]
    have hlen2 : 2 ≤ t.length := by
      have hc := congrArg List.length hp
      rw [List.length_take] at hc
      simp at hc
      omega
    have hdlen : (t.drop 2).length = t.length - 2 := List.length_drop 2 t
    have hxall : ¬ t.all isHexCharGo = true := by
      intro hall
      have hxt : 'x' ∈ t := by
        apply List.mem_of_mem_take (n := 2)
        rw [hp]
        simp
      have hx := List.all_eq_true.mp hall 'x' hxt
      exact absurd hx (by decide)
    by_cases h40 : (t.drop 2).length = 40
    · rw [if_neg (by omega)]
      by_cases hhex : (t.drop 2).all isHexCharGo = true
      · have hdec : hexDecodeOk (t.drop 2) = true := by
          unfold hexDecodeOk
          rw [h40]
          simp [hhex]
        rw [if_neg (by simp [hdec])]
        rw [if_pos ⟨by omega, hp, hhex⟩]
      · have hdec : hexDecodeOk (t.drop 2) = false := by
          unfold hexDecodeOk
          have hh : (t.drop 2).all isHexCharGo = false := Bool.eq_false_iff.mpr hhex
          simp [hh]
        rw [if_pos (by simp [hdec])]
        rw [if_neg (fun hcon => hhex hcon.2.2)]
        rw [if_neg (fun hcon => hxall hcon.2)]
    · rw [if_pos (by omega)]
      rw [if_neg (fun hcon => h40 (by omega))]
      rw [if_neg (fun hcon => hxall hcon.2)]
  · simp only [if_neg hp]
    by_cases h40 : t.length = 40
    · rw [if_neg (by omega)]
      by_cases hhex : t.all isHexCharGo = true
      · have hdec : hexDecodeOk t = true := by
          unfold hexDecodeOk
          rw [h40]
          simp [hhex]
        rw [if_neg (by simp [hdec])]
        rw [if_neg (fun hcon => hp hcon.2.1)]
        rw [if_pos ⟨h40, hhex⟩]
      · have hdec : hexDecodeOk t = false := by
          unfold hexDecodeOk
          have hh : t.all isHexCharGo = false := Bool.eq_false_iff.mpr hhex
          simp [hh]
        rw [if_pos (by simp [hdec])]
        rw [if_neg (fun hcon => hp hcon.2.1)]
        rw [if_neg (fun hcon => hhex hcon.2)]
    · rw [if_pos h40]
      rw [if_neg (fun hcon => hp hcon.2.1)]
      rw [if_neg (fun hcon => h40 hcon.1)]

theorem validate_eq_spec (s : List Char) :
    validateAndNormalizeAddress s = specValidateAddress s :=
  validate_core (goToLower (goTrimSpace s))

theorem validate_congr {s s' : List Char} (h : goTrimSpace s = goTrimSpace s') :
    validateAndNormalizeAddress s = validateAndNormalizeAddress s' := by
  unfold validateAndNormalizeAddress
  rw [h]

theorem validate_trim (s : List Char) :
    validateAndNormalizeAddress (goTrimSpace s) = validateAndNormalizeAddress s :=
  validate_congr (goTrimSpace_idem s)

theorem validate_accept_trim_ne_empty {s a : List Char}
    (h : validateAndNormalizeAddress s = (a, true)) :
    (goTrimSpace s).isEmpty = false := by
  by_cases he : goTrimSpace s = []
  · have h0 : validateAndNormalizeAddress s = validateAndNormalizeAddress [] :=
      validate_congr (by rw [he]; rfl)
    have h1 : validateAndNormalizeAddress ([] : List Char) = ([], false) := rfl
    rw [h0, h1] at h
    have := congrArg Prod.snd h
    simp at this
  · simp [List.isEmpty_iff, he]

theorem subscribe_stores_canonical {subs : List (List Char)} {s a : List Char}
    (h : validateAndNormalizeAddress s = (a, true)) :
    Subscribe subs s = some (memdb.AddSubscription subs a) := by
  have hne := validate_accept_trim_ne_empty h
  have hv : validateAndNormalizeAddress (goTrimSpace s) = (a, true) := by
    rw [validate_trim]
    exact h
  simp only [Subscribe]
  rw [hne]
  show (if false = true then _ else _) = _
  rw [if_neg (by simp)]
  rw [hv]
  simp

theorem addSubscription_contains (subs : List (List Char)) (a : List Char) :
    (memdb.AddSubscription subs a).contains a = true := by
  unfold memdb.AddSubscription
  by_cases hc : subs.contains a = true
  · rw [if_pos hc]
    exact hc
  · rw [if_neg hc]
    have : a ∈ subs ++ [a] := by simp
    exact List.elem_iff.mpr this

theorem listTransactions_raw_lookup {subs : List (List Char)} {s a : List Char}
    (getTxs : List Char → List store.TxRecord)
    (h : validateAndNormalizeAddress s = (a, true))
    (hsub : memdb.IsSubscribed subs a = true) :
    ListTransactions subs getTxs s = some (getTxs s) := by
  have hne := validate_accept_trim_ne_empty h
  have hv : validateAndNormalizeAddress (goTrimSpace s) = (a, true) := by
    rw [validate_trim]
    exact h
  simp only [ListTransactions]
  rw [hne]
  show (if false = true then _ else _) = _
  rw [if_neg (by simp)]
  rw [hv]
  show (if true = true then (if memdb.IsSubscribed subs a = true then _ else _) else _) = _
  rw [if_pos rfl, if_pos hsub]

end restapi

namespace index

open gostrings

theorem subscribedAddresses_from_eq_to (isSub : List Char → Bool) (tx : eth.Tx)
    (heq : tx.From = tx.To) (hsub : isSub tx.To = true) :
    subscribedAddresses isSub tx = [goToLower tx.To, goToLower tx.To] := by
  unfold subscribedAddresses
  rw [heq]
  simp [hsub]

theorem indexTx_from_eq_to (isSub : List Char → Bool) (block : eth.Block)
    (m : List Char → List store.TxRecord) (tx : eth.Tx)
    (heq : tx.From = tx.To) (hsub : isSub tx.To = true) :
    indexTx isSub block m tx (goToLower tx.To)
      = m (goToLower tx.To) ++ [recordTx block tx, recordTx block tx] := by
  unfold indexTx
  rw [subscribedAddresses_from_eq_to isSub tx heq hsub]
  show (if goToLower tx.To = goToLower tx.To then
        (if goToLower tx.To = goToLower tx.To then m (goToLower tx.To) ++ [recordTx block tx]
         else m (goToLower tx.To)) ++ [recordTx block tx]
      else _) = _
  rw [if_pos rfl, if_pos rfl, List.append_assoc]
  rfl

theorem subscribedAddresses_exact_match (subs : List (List Char)) (tx : eth.Tx)
    (h : memdb.IsSubscribed subs tx.To = true) :
    goToLower tx.To ∈ subscribedAddresses (memdb.IsSubscribed subs) tx := by
  unfold subscribedAddresses
  apply List.mem_map_of_mem
  apply List.mem_filter.mpr
  exact ⟨by simp, h⟩

end index

namespace memdb

theorem foldl_buckets_other (a : List Char) :
    ∀ (entries : List (List Char × List store.TxRecord))
      (m : List Char → List store.TxRecord),
      (∀ e ∈ entries, e.1 ≠ a) →
      (entries.foldl (fun m e => fun x => if x = e.1 then m x ++ e.2 else m x) m) a = m a := by
  intro entries
  induction entries with
  | nil => intro m _; rfl
  | cons e es ih =>
    intro m h
    have he : e.1 ≠ a := h e (List.mem_cons_self e es)
    have hes : ∀ x ∈ es, x.1 ≠ a := fun x hx => h x (List.mem_cons_of_mem e hx)
    show (es.foldl (fun m e => fun x => if x = e.1 then m x ++ e.2 else m x)
        (fun x => if x = e.1 then m x ++ e.2 else m x)) a = m a
    rw [ih (fun x => if x = e.1 then m x ++ e.2 else m x) hes]
    show (if a = e.1 then m a ++ e.2 else m a) = m a
    rw [if_neg (fun hc => he hc.symm)]

theorem insertBlock_other_addr (s : TxStore) (blk : store.Block) (a : List Char)
    (h : ∀ e ∈ blk.AddrToTxs, e.1 ≠ a) :
    (InsertBlock s blk).addrToTransactions a = s.addrToTransactions a := by
  unfold InsertBlock
  exact foldl_buckets_other a blk.AddrToTxs s.addrToTransactions h

theorem foldl_currentBlockNum : ∀ (bs : List store.Block) (s : TxStore),
    (bs.foldl InsertBlock s).currentBlockNum
      = ((bs.getLast?).map store.Block.Number).getD s.currentBlockNum := by
  intro bs
  induction bs with
  | nil => intro s; rfl
  | cons b rest ih =>
    intro s
    show ((rest.foldl InsertBlock (InsertBlock s b)).currentBlockNum) = _
    rw [ih (InsertBlock s b)]
    cases rest with
    | nil => rfl
    | cons r rs =>
      rw [List.getLast?_cons_cons]
      rfl

end memdb

/-- C6: for every RingWindow created with capacity `C` and every finite
sequence of push/pop/dropBack operations, `size` never exceeds the (clamped)
capacity; `pop` on an empty window returns not-ok and leaves the window
unchanged; `push` on a full window returns `false` and leaves it unchanged;
and the contents always coincide with the abstract bounded FIFO queue (oldest
first), so the n-th successful `pop` returns the n-th pushed item not removed
by an intervening `dropBack`, with a successful `pop` returning the front of
that queue. -/
theorem C6_ringwindow_invariants {T : Type} (cap : Nat) (ops : List (ringbuffer.QOp T)) :
    ringbuffer.RingBuffer.contents (ringbuffer.runOps (ringbuffer.New T cap) ops)
        = ringbuffer.runModel (max 1 cap) [] ops ∧
      (ringbuffer.runOps (ringbuffer.New T cap) ops).Size ≤ max 1 cap ∧
      ((ringbuffer.runOps (ringbuffer.New T cap) ops).size = 0 →
        (ringbuffer.runOps (ringbuffer.New T cap) ops).Pop
          = (none, false, ringbuffer.runOps (ringbuffer.New T cap) ops)) ∧
      (∀ x, (ringbuffer.runOps (ringbuffer.New T cap) ops).IsFull = true →
        (ringbuffer.runOps (ringbuffer.New T cap) ops).Push x
          = (ringbuffer.runOps (ringbuffer.New T cap) ops, false)) ∧
      (0 < (ringbuffer.runOps (ringbuffer.New T cap) ops).size →
        ((ringbuffer.runOps (ringbuffer.New T cap) ops).Pop).1
            = (ringbuffer.RingBuffer.contents
                (ringbuffer.runOps (ringbuffer.New T cap) ops)).head? ∧
          ((ringbuffer.runOps (ringbuffer.New T cap) ops).Pop).2.1 = true) := by
  obtain ⟨wf, hcap, hsim⟩ :=
    ringbuffer.runOps_spec ops (ringbuffer.New T cap) (ringbuffer.RingBuffer.wf_new cap)
  rw [ringbuffer.RingBuffer.capacity_new] at hcap
  refine ⟨?_, ?_, ?_, ?_, ?_⟩
  · rw [hsim, ringbuffer.RingBuffer.capacity_new, ringbuffer.RingBuffer.contents_new]
  · show (ringbuffer.runOps (ringbuffer.New T cap) ops).size ≤ max 1 cap
    rw [← hcap]
    exact wf.size_le
  · intro hz
    exact ringbuffer.RingBuffer.pop_of_empty hz
  · intro x hfull
    exact ringbuffer.RingBuffer.push_of_full x
      (ringbuffer.RingBuffer.isFull_iff.mp hfull)
  · intro hpos
    obtain ⟨h1, h2, _⟩ := ringbuffer.RingBuffer.pop_spec wf hpos
    exact ⟨h1, h2⟩

/-- C6 witness: concrete run with capacity 2 — a third push is rejected
leaving the buffer unchanged, and a pop returns the first pushed item. -/
theorem C6_ringwindow_invariants_witness :
    ringbuffer.RingBuffer.contents (ringbuffer.runOps (ringbuffer.New Nat 2)
        [ringbuffer.QOp.push 5, ringbuffer.QOp.push 7, ringbuffer.QOp.push 9,
          ringbuffer.QOp.pop]) = [7] ∧
    (ringbuffer.runOps (ringbuffer.New Nat 2)
        [ringbuffer.QOp.push 5, ringbuffer.QOp.push 7]).Push 9
      = (ringbuffer.runOps (ringbuffer.New Nat 2)
          [ringbuffer.QOp.push 5, ringbuffer.QOp.push 7], false) ∧
    ((ringbuffer.runOps (ringbuffer.New Nat 2)
        [ringbuffer.QOp.push 5, ringbuffer.QOp.push 7]).Pop).1 = some 5 := by
  have h4 := C6_ringwindow_invariants 2
    [ringbuffer.QOp.push 5, ringbuffer.QOp.push 7, ringbuffer.QOp.push 9, ringbuffer.QOp.pop]
  have h2 := C6_ringwindow_invariants 2 [ringbuffer.QOp.push 5, ringbuffer.QOp.push 7]
  refine ⟨?_, ?_, ?_⟩
  · rw [h4.1]
    decide
  · exact h2.2.2.2.1 9 (by decide)
  · have hpop := (h2.2.2.2.2 (by decide)).1
    rw [hpop, h2.1]
    decide

/-- C7: in the ReorgFilter's per-block processing, after reconciliation and
the conditional front eviction, the final push of the incoming block always
succeeds (every reachable buffer satisfies `Wf`, established by `New` and
preserved by each step); this holds for every requested confirmation depth,
including 0, because a capacity below 1 is clamped to 1 at construction. -/
theorem C7_push_always_succeeds :
    (ringbuffer.New eth.Block 0).capacity = 1 ∧
      (∀ depth : Nat, 0 < (ringbuffer.New eth.Block depth).capacity) ∧
      (∀ (rb : ringbuffer.RingBuffer eth.Block) (b : eth.Block),
        ringbuffer.RingBuffer.Wf rb → (eth.reorgStep rb b).pushedOk = true) := by
  refine ⟨?_, ?_, ?_⟩
  · rw [ringbuffer.RingBuffer.capacity_new]
    decide
  · intro depth
    rw [ringbuffer.RingBuffer.capacity_new]
    omega
  · intro rb b wf
    exact (eth.reorgStep_refines b wf).2.2.2.2.2

/-- C7 witness: the push succeeds on the freshly constructed zero-capacity
(clamped to 1) buffer. -/
theorem C7_push_always_succeeds_witness :
    (eth.reorgStep (ringbuffer.New eth.Block 0) eth.blkA).pushedOk = true :=
  C7_push_always_succeeds.2.2 (ringbuffer.New eth.Block 0) eth.blkA
    (ringbuffer.RingBuffer.wf_new 0)

/-- C8: a transport error caused by cancellation or deadline expiry is
classified permanent: the retry loop stops with it immediately, consuming no
further attempts, however many transient failures preceded it and whatever
outcomes would have followed; a response with a non-2xx status code and a
response body that fails to decode are failures for that tick after a single
consumed attempt, triggering no further retries of the request. -/
theorem C8_retry_classification :
    (∀ (pre rest : List eth.AttemptOutcome),
        (∀ x ∈ pre, x = eth.AttemptOutcome.transport false) →
        eth.doRequestWithRetry (pre ++ eth.AttemptOutcome.transport true :: rest)
          = (Except.error eth.FetchError.cancelledPermanent, pre.length + 1)) ∧
      (∀ (r : eth.HttpResp) (rest : List eth.AttemptOutcome),
        r.status < 200 ∨ 299 < r.status →
        eth.getFullBlock (eth.AttemptOutcome.response r :: rest)
          = (Except.error (eth.FetchError.badStatus r.status), 1)) ∧
      (∀ rest : List eth.AttemptOutcome,
        eth.getFullBlock
            (eth.AttemptOutcome.response ⟨200, eth.RespBody.malformed⟩ :: rest)
          = (Except.error eth.FetchError.decodeFailure, 1)) := by
  refine ⟨eth.doRequestWithRetry_cancelled, ?_, ?_⟩
  · intro r rest h
    have hne : r.status ≠ 200 := by omega
    show (if r.status ≠ 200 then
          ((Except.error (eth.FetchError.badStatus r.status), 1) :
            Except eth.FetchError eth.Block × Nat)
        else
          match r.body with
          | eth.RespBody.malformed => (Except.error eth.FetchError.decodeFailure, 1)
          | eth.RespBody.nullResult => (Except.error eth.FetchError.notMinted, 1)
          | eth.RespBody.blockResult b => (Except.ok b, 1)) = _
    rw [if_pos hne]
  · intro rest
    rfl

/-- C8 witness: a cancellation after one transient failure stops the retry
loop at the second attempt; a 500 response and an undecodable 200 response
each fail after a single attempt. -/
theorem C8_retry_classification_witness :
    eth.doRequestWithRetry
        [eth.AttemptOutcome.transport false, eth.AttemptOutcome.transport true,
          eth.AttemptOutcome.response ⟨200, eth.RespBody.nullResult⟩]
      = (Except.error eth.FetchError.cancelledPermanent, 2) ∧
    eth.getFullBlock [eth.AttemptOutcome.response ⟨500, eth.RespBody.malformed⟩]
      = (Except.error (eth.FetchError.badStatus 500), 1) ∧
    eth.getFullBlock [eth.AttemptOutcome.response ⟨200, eth.RespBody.malformed⟩]
      = (Except.error eth.FetchError.decodeFailure, 1) := by
  refine ⟨?_, ?_, ?_⟩
  · exact C8_retry_classification.1 [eth.AttemptOutcome.transport false]
      [eth.AttemptOutcome.response ⟨200, eth.RespBody.nullResult⟩] (by decide)
  · exact C8_retry_classification.2.1 ⟨500, eth.RespBody.malformed⟩ []
      (by decide)
  · exact C8_retry_classification.2.2 []

/-- C10: the REST address validator accepts an input iff, after trimming
surrounding whitespace and lowercasing, it is an optional `0x` prefix followed
by exactly 40 hexadecimal digits, returning the canonical `0x`-prefixed
lowercase form on acceptance and `("", false)` on rejection — stated as the
pointwise equality of the code's validator with the claim's characterization
`specValidateAddress`. -/
theorem C10_validator_equiv (s : List Char) :
    restapi.validateAndNormalizeAddress s = restapi.specValidateAddress s :=
  restapi.validate_eq_spec s

/-- C2 counterexample: with `from == to` on a subscribed address, the indexer
stores the record twice in that address's bucket, not once — `blockSelf`
contains the single self-transaction `txSelf` and its bucket ends up with two
copies of the record. -/
theorem C2_same_from_to_counterexample :
    index.indexBlock (memdb.IsSubscribed [fixtures.addrLower]) fixtures.blockSelf
        fixtures.addrLower = [fixtures.recSelf, fixtures.recSelf] ∧
      (index.indexBlock (memdb.IsSubscribed [fixtures.addrLower]) fixtures.blockSelf
        fixtures.addrLower).length ≠ 1 := by
  have h : index.indexBlock (memdb.IsSubscribed [fixtures.addrLower]) fixtures.blockSelf
      fixtures.addrLower = [fixtures.recSelf, fixtures.recSelf] := by decide
  refine ⟨h, ?_⟩
  rw [h]
  decide

/-- C2 as amended: for every transaction with `from == to` on a subscribed
address, `subscribedAddresses` returns the lowercased address twice (the two
membership checks are independent and both match), and the per-transaction
index step appends the record twice to that single bucket. -/
theorem C2_same_from_to_two_records (isSub : List Char → Bool) (block : eth.Block)
    (m : List Char → List store.TxRecord) (tx : eth.Tx)
    (heq : tx.From = tx.To) (hsub : isSub tx.To = true) :
    index.subscribedAddresses isSub tx
        = [gostrings.goToLower tx.To, gostrings.goToLower tx.To] ∧
      index.indexTx isSub block m tx (gostrings.goToLower tx.To)
        = m (gostrings.goToLower tx.To)
            ++ [index.recordTx block tx, index.recordTx block tx] :=
  ⟨index.subscribedAddresses_from_eq_to isSub tx heq hsub,
    index.indexTx_from_eq_to isSub block m tx heq hsub⟩

/-- C2 witness: the amended statement at the concrete self-transaction. -/
theorem C2_same_from_to_two_records_witness :
    index.subscribedAddresses (memdb.IsSubscribed [fixtures.addrLower]) fixtures.txSelf
        = [gostrings.goToLower fixtures.txSelf.To, gostrings.goToLower fixtures.txSelf.To] ∧
      index.indexTx (memdb.IsSubscribed [fixtures.addrLower]) fixtures.blockSelf
          (fun _ => []) fixtures.txSelf (gostrings.goToLower fixtures.txSelf.To)
        = (fun _ : List Char => ([] : List store.TxRecord))
              (gostrings.goToLower fixtures.txSelf.To)
            ++ [index.recordTx fixtures.blockSelf fixtures.txSelf,
                index.recordTx fixtures.blockSelf fixtures.txSelf] :=
  C2_same_from_to_two_records (memdb.IsSubscribed [fixtures.addrLower])
    fixtures.blockSelf (fun _ => []) fixtures.txSelf rfl (by decide)

/-- C3 counterexample: subscription and listing normalize, but matching does
not, and the listing's store fetch uses the raw request spelling. With the
lowercase address subscribed, a transaction carrying the uppercase spelling
on both sides matches no subscription, and `ListTransactions` for the
uppercase spelling passes the subscription check yet queries the store with
the raw uppercase key, finding nothing even though records are stored under
the canonical form. -/
theorem C3_address_normalization_counterexample :
    restapi.validateAndNormalizeAddress fixtures.addrUpper = (fixtures.addrLower, true) ∧
      index.subscribedAddresses (memdb.IsSubscribed [fixtures.addrLower])
          fixtures.txUpper = [] ∧
      restapi.ListTransactions [fixtures.addrLower]
          (fun a => if a = fixtures.addrLower then [fixtures.recSelf] else [])
          fixtures.addrUpper
        = some [] := by
  refine ⟨by decide, by decide, by decide⟩

/-- C3 as amended: normalization is applied when subscribing (the canonical
lowercase form is stored) and when checking the subscription during listing,
but the indexer matches a transaction side only when its exact raw spelling
is in the subscription set, and the listing's store fetch uses the raw
request address, not the canonical form. -/
theorem C3_address_normalization_amended {subs : List (List Char)} {s a : List Char}
    (getTxs : List Char → List store.TxRecord) (tx : eth.Tx)
    (h : restapi.validateAndNormalizeAddress s = (a, true))
    (hsub : memdb.IsSubscribed subs a = true)
    (hto : memdb.IsSubscribed subs tx.To = true) :
    restapi.Subscribe subs s = some (memdb.AddSubscription subs a) ∧
      restapi.ListTransactions subs getTxs s = some (getTxs s) ∧
      gostrings.goToLower tx.To
        ∈ index.subscribedAddresses (memdb.IsSubscribed subs) tx :=
  ⟨restapi.subscribe_stores_canonical h,
    restapi.listTransactions_raw_lookup getTxs h hsub,
    index.subscribedAddresses_exact_match subs tx hto⟩

/-- C3 witness: the amended statement at the concrete fixtures — subscribing
the uppercase spelling stores the lowercase canonical form, listing with the
uppercase spelling fetches under the raw uppercase key, and the exact
lowercase spelling matches. -/
theorem C3_address_normalization_amended_witness :
    restapi.Subscribe [fixtures.addrLower] fixtures.addrUpper
        = some (memdb.AddSubscription [fixtures.addrLower] fixtures.addrLower) ∧
      restapi.ListTransactions [fixtures.addrLower]
          (fun a => if a = fixtures.addrLower then [fixtures.recSelf] else [])
          fixtures.addrUpper
        = some ((fun a => if a = fixtures.addrLower then [fixtures.recSelf] else [])
            fixtures.addrUpper) ∧
      gostrings.goToLower fixtures.txSelf.To
        ∈ index.subscribedAddresses (memdb.IsSubscribed [fixtures.addrLower])
            fixtures.txSelf :=
  C3_address_normalization_amended
    (fun a => if a = fixtures.addrLower then [fixtures.recSelf] else [])
    fixtures.txSelf (by decide) (by decide) (by decide)

/-- C5 counterexample: pairwise-distinct returned heights do not give a
strictly increasing emitted sequence — the loop advances `lastKnown` to
whatever height comes back and compares only against the immediately
previous height, so the honest-looking but decreasing responses 5 then 3
are both emitted, out of order. -/
theorem C5_height_monotonicity_counterexample :
    (([some fixtures.bl5, some fixtures.bl3].filterMap id).map eth.Block.Number).Nodup ∧
      eth.streamRun (-2) [some fixtures.bl5, some fixtures.bl3]
        = [fixtures.bl5, fixtures.bl3] ∧
      ¬ List.Chain' (· < ·)
          ((eth.streamRun (-2) [some fixtures.bl5, some fixtures.bl3]).map
            eth.Block.Number) := by
  refine ⟨by decide, by decide, ?_⟩
  have hm : (eth.streamRun (-2) [some fixtures.bl5, some fixtures.bl3]).map
      eth.Block.Number = [5, 3] := by decide
  rw [hm]
  intro hc
  have h53 : (5 : Int) < 3 := (List.chain'_cons.mp hc).1
  omega

/-- C5 as amended: the emitted blocks are a subsequence of the successful
responses, so pairwise-distinct returned heights do rule out duplicate
emitted heights; and under honest responses — each success returns exactly
the requested height `lastKnown + 1` (or any height `≥ 0` for the initial
`latest` request) — the emitted heights are strictly increasing. -/
theorem C5_height_monotonicity_amended (rs : List (Option eth.Block)) :
    (((rs.filterMap id).map eth.Block.Number).Nodup →
        ((eth.streamRun (-2) rs).map eth.Block.Number).Nodup) ∧
      (eth.honestResponses (-2) rs = true →
        List.Chain' (· < ·) ((eth.streamRun (-2) rs).map eth.Block.Number)) := by
  constructor
  · intro hnd
    exact List.Nodup.sublist
      (List.Sublist.map eth.Block.Number (eth.streamRun_sublist rs (-2))) hnd
  · intro hh
    exact (eth.streamRun_honest_mono rs (-2) (Or.inl rfl) hh).1

/-- C5 witness: the amended statement on the honest response sequence
5, (miss), 6. -/
theorem C5_height_monotonicity_amended_witness :
    ((eth.streamRun (-2) [some fixtures.bl5, none, some fixtures.bl6]).map
        eth.Block.Number).Nodup ∧
      List.Chain' (· < ·)
        ((eth.streamRun (-2) [some fixtures.bl5, none, some fixtures.bl6]).map
          eth.Block.Number) :=
  ⟨(C5_height_monotonicity_amended [some fixtures.bl5, none, some fixtures.bl6]).1
      (by decide),
    (C5_height_monotonicity_amended [some fixtures.bl5, none, some fixtures.bl6]).2
      (by decide)⟩

/-- C9 counterexample: a completed `InsertBlock` does not guarantee
`GetCurrentBlockNumber` succeeds — inserting a block whose `Number` is `-1`
collides with the `BlockNone` sentinel, so the getter still reports
not-found. -/
theorem C9_txstore_sentinel_counterexample :
    memdb.GetCurrentBlockNumber (memdb.runInserts [fixtures.blkNegStore]) = none ∧
      [fixtures.blkNegStore] ≠ ([] : List store.Block) := by
  exact ⟨rfl, by decide⟩

/-- C9 as amended: on a fresh store `GetCurrentBlockNumber` is not-found;
after a sequence of inserts it returns the last inserted block's `Number`
unless that number equals the `BlockNone` sentinel `-1`, in which case it is
not-found (so not-found holds iff the store is fresh or the last insert
carried the sentinel); and an insert leaves the buckets of addresses absent
from its mapping unchanged. -/
theorem C9_txstore_amended :
    memdb.GetCurrentBlockNumber (memdb.runInserts []) = none ∧
      (∀ (bs : List store.Block) (blk : store.Block),
        memdb.GetCurrentBlockNumber (memdb.runInserts (bs ++ [blk]))
          = if blk.Number = memdb.BlockNone then none else some blk.Number) ∧
      (∀ (s : memdb.TxStore) (blk : store.Block) (a : List Char),
        (∀ e ∈ blk.AddrToTxs, e.1 ≠ a) →
        (memdb.InsertBlock s blk).addrToTransactions a = s.addrToTransactions a) ∧
      (∀ bs : List store.Block,
        memdb.GetCurrentBlockNumber (memdb.runInserts bs) = none ↔
          ∀ blk, bs.getLast? = some blk → blk.Number = memdb.BlockNone) := by
  refine ⟨rfl, ?_, ?_, ?_⟩
  · intro bs blk
    have h := memdb.foldl_currentBlockNum (bs ++ [blk]) memdb.NewTxStore
    rw [List.getLast?_concat] at h
    show (if (memdb.runInserts (bs ++ [blk])).currentBlockNum = memdb.BlockNone
        then none else some (memdb.runInserts (bs ++ [blk])).currentBlockNum) = _
    rw [show (memdb.runInserts (bs ++ [blk])).currentBlockNum = blk.Number from h]
  · intro s blk a h
    exact memdb.insertBlock_other_addr s blk a h
  · intro bs
    have h := memdb.foldl_currentBlockNum bs memdb.NewTxStore
    show (if (memdb.runInserts bs).currentBlockNum = memdb.BlockNone
        then none else some (memdb.runInserts bs).currentBlockNum) = none ↔ _
    cases hl : bs.getLast? with
    | none =>
      rw [hl] at h
      rw [show (memdb.runInserts bs).currentBlockNum = memdb.BlockNone from h]
      rw [if_pos rfl]
      constructor
      · intro _ blk hblk
        exact absurd hblk (by simp)
      · intro _
        rfl
    | some blk0 =>
      rw [hl] at h
      have h0 : (memdb.runInserts bs).currentBlockNum = blk0.Number := h
      rw [h0]
      constructor
      · intro hnone blk hblk
        have hb : blk0 = blk := by simpa using hblk
        subst hb
        by_contra hne
        rw [if_neg hne] at hnone
        exact Option.noConfusion hnone
      · intro hall
        rw [if_pos (hall blk0 rfl)]

/-- C9 witness: the amended statement at concrete stores — an ordinary insert
surfaces its block number, a sentinel-numbered insert reports not-found, and
an insert with an empty mapping leaves an unrelated bucket unchanged. -/
theorem C9_txstore_amended_witness :
    memdb.GetCurrentBlockNumber (memdb.runInserts ([] ++ [fixtures.blkSevenStore]))
        = some 7 ∧
      memdb.GetCurrentBlockNumber
          (memdb.runInserts ([fixtures.blkSevenStore] ++ [fixtures.blkNegStore]))
        = none ∧
      (memdb.InsertBlock memdb.NewTxStore fixtures.blkNegStore).addrToTransactions
          fixtures.addrLower
        = memdb.NewTxStore.addrToTransactions fixtures.addrLower := by
  refine ⟨?_, ?_, ?_⟩
  · have h := C9_txstore_amended.2.1 [] fixtures.blkSevenStore
    rw [h]
    decide
  · have h := C9_txstore_amended.2.1 [fixtures.blkSevenStore] fixtures.blkNegStore
    rw [h]
    decide
  · exact C9_txstore_amended.2.2.1 memdb.NewTxStore fixtures.blkNegStore
      fixtures.addrLower (by decide)

/-- C1: for every confirmation depth `D ≥ 1`, when a fork of depth `< D`
(the orphan segment `O`) interrupts a linked chain `C0 ++ C1`, the
ReorgFilter emits a prefix of the surviving chain `C0 ++ C1`: no orphaned
block is ever emitted, and height order is preserved whenever the surviving
chain's heights increase. In particular, for `D = 3` and the arrivals
A(h=1), B(h=2,parent=A), C(h=2,parent=A), D(h=3,parent=C), E(h=4,parent=D),
the only emission is A — which happens upon E's arrival, since four arrivals
emit nothing — and B is never emitted. -/
theorem C1_reorg_fork_absorption :
    (∀ (depth : Nat) (C0 O C1 : List eth.Block),
        1 ≤ depth → C0 ≠ [] →
        eth.Linked (C0 ++ C1) → eth.Linked O →
        (∀ o, O.head? = some o →
          ∃ t, C0.getLast? = some t ∧ o.ParentHash = t.Hash) →
        O.length < depth →
        ((C0 ++ O ++ C1).map eth.Block.Hash).Nodup →
        ∃ n, eth.ReorgFilter depth (C0 ++ O ++ C1) = (C0 ++ C1).take n ∧
          (∀ o ∈ O, o ∉ eth.ReorgFilter depth (C0 ++ O ++ C1)) ∧
          (List.Chain' (· < ·) ((C0 ++ C1).map eth.Block.Number) →
            List.Chain' (· < ·)
              ((eth.ReorgFilter depth (C0 ++ O ++ C1)).map eth.Block.Number))) ∧
      eth.ReorgFilter 3 [eth.blkA, eth.blkB, eth.blkC, eth.blkD, eth.blkE]
        = [eth.blkA] ∧
      eth.ReorgFilter 3 [eth.blkA, eth.blkB, eth.blkC, eth.blkD] = [] ∧
      eth.blkB ∉ eth.ReorgFilter 3 [eth.blkA, eth.blkB, eth.blkC, eth.blkD, eth.blkE] := by
  refine ⟨?_, by decide, by decide, by decide⟩
  intro depth C0 O C1 hd hC0 hchain hO hlink hdepth hnd
  have hdmax : max 1 depth = depth := Nat.max_eq_right hd
  have hdisj : ∀ o ∈ O, ∀ x ∈ C0, o.Hash ≠ x.Hash := by
    intro o ho x hx heq
    have hsub : ((C0 ++ O).map eth.Block.Hash).Nodup := by
      have hs : ((C0 ++ O).map eth.Block.Hash).Sublist
          ((C0 ++ O ++ C1).map eth.Block.Hash) :=
        List.Sublist.map eth.Block.Hash (List.sublist_append_left (C0 ++ O) C1)
      exact hnd.sublist hs
    rw [List.map_append] at hsub
    have hd2 := (List.nodup_append.mp hsub).2.2
    have hxm : x.Hash ∈ C0.map eth.Block.Hash := List.mem_map_of_mem eth.Block.Hash hx
    have hom : x.Hash ∈ O.map eth.Block.Hash := by
      rw [← heq]
      exact List.mem_map_of_mem eth.Block.Hash ho
    exact hd2 hxm hom
  have hfork := eth.winRun_fork depth hd C0 O C1 hC0 hchain hO hlink hdepth hdisj
  have hout : eth.ReorgFilter depth (C0 ++ O ++ C1)
      = (C0 ++ C1).take (C0.length + O.length - depth
          + ((C0.length - (C0.length + O.length - depth)) + C1.length - depth)) := by
    rw [eth.ReorgFilter_eq_winRun, hdmax]
    exact hfork
  obtain ⟨hno, hmono⟩ := eth.take_fork_conclusions hout hnd
  exact ⟨_, hout, hno, hmono⟩

/-- C1 witness: the general fork statement instantiated at
`C0 = [A]`, `O = [B]`, `C1 = [C, D, E]` with depth 3. -/
theorem C1_reorg_fork_absorption_witness :
    ∃ n, eth.ReorgFilter 3
          ([eth.blkA] ++ [eth.blkB] ++ [eth.blkC, eth.blkD, eth.blkE])
        = ([eth.blkA] ++ [eth.blkC, eth.blkD, eth.blkE]).take n ∧
      (∀ o ∈ [eth.blkB], o ∉ eth.ReorgFilter 3
          ([eth.blkA] ++ [eth.blkB] ++ [eth.blkC, eth.blkD, eth.blkE])) ∧
      (List.Chain' (· < ·)
          (([eth.blkA] ++ [eth.blkC, eth.blkD, eth.blkE]).map eth.Block.Number) →
        List.Chain' (· < ·)
          ((eth.ReorgFilter 3
            ([eth.blkA] ++ [eth.blkB] ++ [eth.blkC, eth.blkD, eth.blkE])).map
              eth.Block.Number)) :=
  C1_reorg_fork_absorption.1 3 [eth.blkA] [eth.blkB] [eth.blkC, eth.blkD, eth.blkE]
    (by decide) (by decide)
    (by simp [eth.Linked, List.chain'_cons, eth.blkA, eth.blkC, eth.blkD, eth.blkE])
    (by simp [eth.Linked])
    (by
      intro o ho
      have hob : eth.blkB = o := by simpa using ho
      subst hob
      exact ⟨eth.blkA, rfl, rfl⟩)
    (by decide) (by decide)

/-- C4: for every confirmation depth and every block `B`, (i) if the input
blocks have pairwise-distinct hashes then the ReorgFilter emits `B` at most
once, and (ii) whenever a step emits `B`, the window just before that step is
exactly `B` followed by a tail of `max 1 depth - 1` blocks — the consistent
successors that have survived reconciliation — the whole window is
parent-linked, the incoming block attaches to the window's newest block, and
the window is a subsequence of the earlier arrivals; so no emission of `B`
occurs before `D - 1` consistent successors have accumulated behind it. -/
theorem C4_confirmation_delay (depth : Nat) (bs : List eth.Block) (B : eth.Block) :
    ((bs.map eth.Block.Hash).Nodup → (eth.ReorgFilter depth bs).count B ≤ 1) ∧
      (∀ (pre : List eth.Block) (b : eth.Block) (post : List eth.Block),
        bs = pre ++ b :: post →
        (eth.reorgStep (eth.reorgRun (ringbuffer.New eth.Block depth) pre).1 b).emitted
          = some B →
        ∃ tail,
          ringbuffer.RingBuffer.contents
              (eth.reorgRun (ringbuffer.New eth.Block depth) pre).1 = B :: tail ∧
            tail.length = max 1 depth - 1 ∧
            eth.Linked (B :: tail) ∧
            (∃ L, (B :: tail).getLast? = some L ∧ b.ParentHash = L.Hash) ∧
            (B :: tail).Sublist pre) := by
  constructor
  · intro hnd
    have hcnt := eth.winRun_count (max 1 depth) bs [] B
    rw [List.nil_append] at hcnt
    have hbs : bs.Nodup := List.Nodup.of_map eth.Block.Hash hnd
    have hle : bs.count B ≤ 1 := List.nodup_iff_count_le_one.mp hbs B
    rw [eth.ReorgFilter_eq_winRun]
    omega
  · intro pre b post hbs he
    obtain ⟨hc, _, _, hwf, hcap⟩ :=
      eth.reorgRun_refines pre (ringbuffer.New eth.Block depth)
        (ringbuffer.RingBuffer.wf_new depth)
    rw [ringbuffer.RingBuffer.capacity_new, ringbuffer.RingBuffer.contents_new] at hc
    rw [ringbuffer.RingBuffer.capacity_new] at hcap
    have hstep := eth.reorgStep_refines b hwf
    have hemit : (eth.reorgStep (eth.reorgRun (ringbuffer.New eth.Block depth) pre).1
          b).emitted
        = (eth.winStep (max 1 depth) ((eth.winRun (max 1 depth) [] pre).1) b).2.1 := by
      rw [hstep.2.1, hcap, hc]
    rw [hemit] at he
    have hD : 0 < max 1 depth := by omega
    obtain ⟨hlinkW, hlenW, hsubW⟩ :=
      eth.winRun_invariant (max 1 depth) hD pre [] (by simp [eth.Linked]) (by simp)
    rw [List.nil_append] at hsubW
    obtain ⟨hWD, _, hhead, hattach⟩ := eth.winStep_emit (max 1 depth) _ b B hlenW he
    cases hW : (eth.winRun (max 1 depth) [] pre).1 with
    | nil =>
      rw [hW] at hhead
      exact absurd hhead (by simp)
    | cons w0 tl =>
      rw [hW] at hhead hWD hlinkW hsubW
      have hw0 : w0 = B := by simpa using hhead
      subst hw0
      refine ⟨tl, ?_, ?_, ?_, ?_, ?_⟩
      · rw [hc, hW]
      · rw [List.length_cons] at hWD
        omega
      · exact hlinkW
      · refine ⟨(w0 :: tl).getLast (List.cons_ne_nil w0 tl),
          List.getLast?_eq_getLast (w0 :: tl) (List.cons_ne_nil w0 tl), ?_⟩
        apply hattach
        rw [hW]
        exact List.getLast?_eq_getLast (w0 :: tl) (List.cons_ne_nil w0 tl)
      · exact hsubW

/-- C4 witness: with depth 3 on the A,B,C,D,E scenario, A is counted at most
once in the output, and at E's arrival — the step that emits A — the window
is A followed by 2 surviving successors. -/
theorem C4_confirmation_delay_witness :
    (eth.ReorgFilter 3
        [eth.blkA, eth.blkB, eth.blkC, eth.blkD, eth.blkE]).count eth.blkA ≤ 1 ∧
      ∃ tail,
        ringbuffer.RingBuffer.contents
            (eth.reorgRun (ringbuffer.New eth.Block 3)
              [eth.blkA, eth.blkB, eth.blkC, eth.blkD]).1 = eth.blkA :: tail ∧
          tail.length = max 1 3 - 1 ∧
          eth.Linked (eth.blkA :: tail) ∧
          (∃ L, (eth.blkA :: tail).getLast? = some L ∧ eth.blkE.ParentHash = L.Hash) ∧
          (eth.blkA :: tail).Sublist [eth.blkA, eth.blkB, eth.blkC, eth.blkD] :=
  ⟨(C4_confirmation_delay 3 [eth.blkA, eth.blkB, eth.blkC, eth.blkD, eth.blkE]
      eth.blkA).1 (by decide),
    (C4_confirmation_delay 3 [eth.blkA, eth.blkB, eth.blkC, eth.blkD, eth.blkE]
      eth.blkA).2 [eth.blkA, eth.blkB, eth.blkC, eth.blkD] eth.blkE [] rfl (by decide)⟩
